import Mathlib

/-!
Shallow embedding of the NHS TAC (Trust Accounts Consolidation) analyst
pipeline, covering the ingestion, dimension-building and enrichment scripts:

* `src/build_canonical.py` — workbook ingester (sheet location, column
  resolution, amount coercion);
* `src/build_dim_tac_subcodes_from_illustrative.py` — subcode dimension
  builder (header/subcode-column detection, extraction, deduplication);
* `src/build_dim_tac_lines_from_mapping.py` — line dimension builder
  (mapping-sheet search, year-based deduplication);
* `src/build_dim_tac_lines_from_illustrative_all_years.py` — `pick_col`
  candidate-name column resolution;
* `src/make_provider_dim_seed.py` — provider dimension roll-up;
* `src/build_enriched_fact.py` — enrichment left joins and QC summary;
* `src/debug_illustrative_scan.py` — keyword-scored header row scan.

Spreadsheet cells are modelled by `CValue` (string / numeric / blank), and
all text normalisation is done on explicit character lists so that every
definition evaluates by kernel reduction.
-/

namespace TruTac

/-- A spreadsheet/dataframe cell as the scripts observe it through pandas:
a string cell, a numeric cell (modelled as a rational), or a blank/NaN cell.
The scripts only ever branch on `isinstance(v, str)` and on numeric
coercibility, so this three-way split captures every distinction they make. -/
inductive CValue where
  | str (s : String)
  | num (q : ℚ)
  | blank
deriving DecidableEq, Repr

/-- ASCII lowercase letter or digit test, used by the `[^a-z0-9]+` removal
in the scripts' `norm` helpers. -/
def isLowerAlnum (c : Char) : Bool :=
  (97 ≤ c.toNat && c.toNat ≤ 122) || (48 ≤ c.toNat && c.toNat ≤ 57)

/-- ASCII uppercase letter test (`[A-Z]` in the subcode regex). -/
def isUpper (c : Char) : Bool := 65 ≤ c.toNat && c.toNat ≤ 90

/-- ASCII digit test (`\d` in the subcode regex). -/
def isDigitCh (c : Char) : Bool := 48 ≤ c.toNat && c.toNat ≤ 57

/-- Whitespace as removed by Python's `str.strip()` (space, tab, LF, CR,
vertical tab, form feed). -/
def isWsp (c : Char) : Bool :=
  c.toNat = 32 || c.toNat = 9 || c.toNat = 10 || c.toNat = 13 ||
  c.toNat = 11 || c.toNat = 12

/-- Python `str.strip()`: drop leading and trailing whitespace. -/
def strip (s : String) : String :=
  ⟨(((s.data.dropWhile isWsp).reverse.dropWhile isWsp).reverse)⟩

/-- The `norm` helper shared by `build_canonical.py`,
`build_dim_tac_lines_from_mapping.py`, `debug_illustrative_scan.py` and the
`regexp_replace(lower(…), '[^a-z0-9]+', '', 'g')` SQL expression in
`build_enriched_fact.py`: lowercase, then drop every character that is not
`[a-z0-9]`.  (The Python versions also call `.strip()` first; stripping
whitespace is a no-op here because whitespace is removed by the filter.) -/
def normKey (s : String) : String :=
  ⟨(s.data.map Char.toLower).filter isLowerAlnum⟩

/-- Substring test (`k in row_n` in Python): `need` occurs contiguously in
`hay`. -/
def listContains (hay need : List Char) : Bool :=
  (List.range (hay.length + 1)).any (fun i => need.isPrefixOf (hay.drop i))

/-- The subcode pattern `^[A-Z]{2,5}\d{3,4}[A-Z]?$` from
`build_dim_tac_subcodes_from_illustrative.py`.  Because the three character
classes are disjoint and anchored, the regex is equivalent to this greedy
decomposition: a maximal uppercase run of length 2–5, a maximal digit run of
length 3–4, then nothing or a single uppercase letter. -/
def matchSubcodeRe (s : String) : Bool :=
  let cs := s.data
  let ups := cs.takeWhile isUpper
  let rest := cs.drop ups.length
  let digs := rest.takeWhile isDigitCh
  let rest2 := rest.drop digs.length
  decide (2 ≤ ups.length) && decide (ups.length ≤ 5) &&
  decide (3 ≤ digs.length) && decide (digs.length ≤ 4) &&
  (match rest2 with
   | [] => true
   | [c] => isUpper c
   | _ => false)

/-! ### Comparator infrastructure

pandas `sort_values` with a column list performs a stable lexicographic
sort, and Python's `sorted` a stable sort by tuple keys.  We model both with
Mathlib's stable `List.insertionSort` over comparators built from
kernel-reducible three-way comparisons, and prove the two comparator laws
(`swap` symmetry and transitivity of "not greater") that
`List.sorted_insertionSort` needs. -/

/-- Three-way comparison on naturals. -/
def natCmp (a b : Nat) : Ordering :=
  if a < b then .lt else if b < a then .gt else .eq

/-- Three-way comparison on characters by code point. -/
def chCmp (a b : Char) : Ordering := natCmp a.toNat b.toNat

/-- Lexicographic three-way comparison on character lists; models the
total order that SQL `MIN`/`MAX` and Python/pandas string sorts use on the
plain ASCII keys occurring in this pipeline. -/
def lexCmp : List Char → List Char → Ordering
  | [], [] => .eq
  | [], _ :: _ => .lt
  | _ :: _, [] => .gt
  | a :: as, b :: bs => (chCmp a b).then (lexCmp as bs)

/-- String comparison via `lexCmp` on the underlying characters. -/
def strCmp (a b : String) : Ordering := lexCmp a.data b.data

/-- Three-way comparison on rationals. -/
def qCmp (a b : ℚ) : Ordering :=
  if a < b then .lt else if b < a then .gt else .eq

/-- Compare through a projection. -/
def cmpBy {α β : Type} (cmp : β → β → Ordering) (f : α → β) :
    α → α → Ordering :=
  fun a b => cmp (f a) (f b)

/-- Lexicographic combination of two comparators. -/
def cmpThen {α : Type} (c1 c2 : α → α → Ordering) : α → α → Ordering :=
  fun a b => (c1 a b).then (c2 a b)

/-- The two comparator laws needed for sorting: antisymmetry via `swap`, and
transitivity of the reflexive order `cmp a b ≠ .gt`. -/
structure CmpLaws {α : Type} (cmp : α → α → Ordering) : Prop where
  swap : ∀ a b, (cmp a b).swap = cmp b a
  ltTrans : ∀ a b c, cmp a b = .lt → cmp b c = .lt → cmp a c = .lt
  eqCongrL : ∀ a b c, cmp a b = .eq → cmp b c = cmp a c

theorem Ordering.then_swap (x y : Ordering) :
    (x.then y).swap = x.swap.then y.swap := by cases x <;> rfl

theorem Ordering.then_eq_lt (x y : Ordering) :
    x.then y = .lt ↔ x = .lt ∨ (x = .eq ∧ y = .lt) := by
  cases x <;> simp [Ordering.then]

theorem Ordering.then_eq_eq (x y : Ordering) :
    x.then y = .eq ↔ x = .eq ∧ y = .eq := by
  cases x <;> simp [Ordering.then]

theorem Ordering.then_eq_gt (x y : Ordering) :
    x.then y = .gt ↔ x = .gt ∨ (x = .eq ∧ y = .gt) := by
  cases x <;> simp [Ordering.then]

theorem CmpLaws.refl {α : Type} {cmp : α → α → Ordering} (h : CmpLaws cmp)
    (a : α) : cmp a a = .eq := by
  have hs := h.swap a a
  cases hc : cmp a a with
  | lt => rw [hc] at hs; exact absurd hs (by decide)
  | eq => rfl
  | gt => rw [hc] at hs; exact absurd hs (by decide)

theorem CmpLaws.ltSwap {α : Type} {cmp : α → α → Ordering} (h : CmpLaws cmp)
    {a b : α} (hab : cmp a b = .lt) : cmp b a = .gt := by
  have hs := h.swap a b; rw [hab] at hs; exact hs.symm

theorem CmpLaws.gtSwap {α : Type} {cmp : α → α → Ordering} (h : CmpLaws cmp)
    {a b : α} (hab : cmp a b = .gt) : cmp b a = .lt := by
  have hs := h.swap a b; rw [hab] at hs; exact hs.symm

theorem CmpLaws.eqSymm {α : Type} {cmp : α → α → Ordering} (h : CmpLaws cmp)
    {a b : α} (hab : cmp a b = .eq) : cmp b a = .eq := by
  have hs := h.swap a b; rw [hab] at hs; exact hs.symm

theorem CmpLaws.eqCongrR {α : Type} {cmp : α → α → Ordering}
    (h : CmpLaws cmp) {a b c : α} (hbc : cmp b c = .eq) :
    cmp a b = cmp a c := by
  have hh1 : cmp c b = .eq := h.eqSymm hbc
  have hh2 : cmp b a = cmp c a := h.eqCongrL c b a hh1
  calc cmp a b = (cmp b a).swap := (h.swap b a).symm
    _ = (cmp c a).swap := by rw [hh2]
    _ = cmp a c := h.swap c a

theorem CmpLaws.leTrans {α : Type} {cmp : α → α → Ordering} (h : CmpLaws cmp)
    {a b c : α} (hab : cmp a b ≠ .gt) (hbc : cmp b c ≠ .gt) :
    cmp a c ≠ .gt := by
  cases h1 : cmp a b with
  | gt => exact absurd h1 hab
  | lt =>
    cases h2 : cmp b c with
    | gt => exact absurd h2 hbc
    | lt => rw [h.ltTrans a b c h1 h2]; decide
    | eq => rw [← h.eqCongrR h2, h1]; decide
  | eq => rw [← h.eqCongrL a b c h1]; exact hbc

theorem CmpLaws.cmpByLaws {α β : Type} {cmp : α → α → Ordering}
    (h : CmpLaws cmp) (f : β → α) : CmpLaws (cmpBy cmp f) := by
  constructor
  · intro a b; exact h.swap (f a) (f b)
  · intro a b c; exact h.ltTrans (f a) (f b) (f c)
  · intro a b c; exact h.eqCongrL (f a) (f b) (f c)

theorem cmpLaws_cmpThen {α : Type} {c1 c2 : α → α → Ordering}
    (h1 : CmpLaws c1) (h2 : CmpLaws c2) : CmpLaws (cmpThen c1 c2) := by
  constructor
  · intro a b
    unfold cmpThen
    rw [Ordering.then_swap, h1.swap, h2.swap]
  · intro a b c hab hbc
    unfold cmpThen at *
    rw [Ordering.then_eq_lt] at hab hbc ⊢
    rcases hab with hab | ⟨hab, hab2⟩ <;> rcases hbc with hbc | ⟨hbc, hbc2⟩
    · exact Or.inl (h1.ltTrans a b c hab hbc)
    · exact Or.inl (by rw [← h1.eqCongrR hbc]; exact hab)
    · exact Or.inl (by rw [← h1.eqCongrL a b c hab]; exact hbc)
    · exact Or.inr ⟨by rw [← h1.eqCongrL a b c hab]; exact hbc,
        h2.ltTrans a b c hab2 hbc2⟩
  · intro a b c hab
    unfold cmpThen at *
    rw [Ordering.then_eq_eq] at hab
    rw [h1.eqCongrL a b c hab.1, h2.eqCongrL a b c hab.2]

theorem natCmp_eq_lt {a b : Nat} : natCmp a b = .lt ↔ a < b := by
  unfold natCmp
  rcases Nat.lt_trichotomy a b with hl | he | hg
  · simp [hl]
  · simp [he, lt_irrefl]
  · simp [hg, Nat.lt_asymm hg, Nat.lt_asymm hg ]

theorem natCmp_eq_eq {a b : Nat} : natCmp a b = .eq ↔ a = b := by
  unfold natCmp
  rcases Nat.lt_trichotomy a b with hl | he | hg
  · simp [hl, Nat.ne_of_lt hl]
  · simp [he, lt_irrefl]
  · simp [hg, Nat.lt_asymm hg, Ne.symm (Nat.ne_of_lt hg)]

theorem natCmp_eq_gt {a b : Nat} : natCmp a b = .gt ↔ b < a := by
  unfold natCmp
  rcases Nat.lt_trichotomy a b with hl | he | hg
  · simp [hl, Nat.lt_asymm hl]
  · simp [he, lt_irrefl]
  · simp [hg, Nat.lt_asymm hg]

theorem cmpLaws_natCmp : CmpLaws natCmp := by
  constructor
  · intro a b
    rcases Nat.lt_trichotomy a b with hl | he | hg
    · rw [natCmp_eq_lt.mpr hl, natCmp_eq_gt.mpr hl]; rfl
    · rw [natCmp_eq_eq.mpr he, natCmp_eq_eq.mpr he.symm]; rfl
    · rw [natCmp_eq_gt.mpr hg, natCmp_eq_lt.mpr hg]; rfl
  · intro a b c hab hbc
    exact natCmp_eq_lt.mpr
      (Nat.lt_trans (natCmp_eq_lt.mp hab) (natCmp_eq_lt.mp hbc))
  · intro a b c hab
    rw [natCmp_eq_eq.mp hab]

theorem cmpLaws_chCmp : CmpLaws chCmp :=
  cmpLaws_natCmp.cmpByLaws Char.toNat

theorem qCmp_eq_lt {a b : ℚ} : qCmp a b = .lt ↔ a < b := by
  unfold qCmp
  rcases lt_trichotomy a b with hl | he | hg
  · simp [hl]
  · simp [he, lt_irrefl]
  · simp [not_lt_of_gt hg, hg]

theorem qCmp_eq_eq {a b : ℚ} : qCmp a b = .eq ↔ a = b := by
  unfold qCmp
  rcases lt_trichotomy a b with hl | he | hg
  · simp [hl, ne_of_lt hl]
  · simp [he, lt_irrefl]
  · simp [not_lt_of_gt hg, hg, Ne.symm (ne_of_lt hg)]

theorem cmpLaws_qCmp : CmpLaws qCmp := by
  constructor
  · intro a b
    unfold qCmp
    rcases lt_trichotomy a b with hl | he | hg
    · simp [hl, not_lt_of_gt hl]; rfl
    · simp [he, lt_irrefl]; rfl
    · simp [hg, not_lt_of_gt hg]; rfl
  · intro a b c hab hbc
    exact qCmp_eq_lt.mpr (lt_trans (qCmp_eq_lt.mp hab) (qCmp_eq_lt.mp hbc))
  · intro a b c hab
    rw [qCmp_eq_eq.mp hab]

theorem chCmp_eq_eq {a b : Char} : chCmp a b = .eq ↔ a = b := by
  unfold chCmp
  rw [natCmp_eq_eq]
  constructor
  · intro hn; exact Char.eq_of_val_eq (UInt32.ext hn)
  · intro he; rw [he]

theorem lexCmp_eq_eq : ∀ {a b : List Char}, lexCmp a b = .eq ↔ a = b := by
  intro a
  induction a with
  | nil => intro b; cases b <;> simp [lexCmp]
  | cons x xs ih =>
    intro b
    cases b with
    | nil => simp [lexCmp]
    | cons y ys =>
      simp only [lexCmp, Ordering.then_eq_eq, chCmp_eq_eq, ih,
        List.cons.injEq]

theorem cmpLaws_lexCmp : CmpLaws lexCmp := by
  constructor
  · intro a
    induction a with
    | nil => intro b; cases b <;> rfl
    | cons x xs ih =>
      intro b
      cases b with
      | nil => rfl
      | cons y ys =>
        show (lexCmp (x :: xs) (y :: ys)).swap = _
        unfold lexCmp
        rw [Ordering.then_swap, cmpLaws_chCmp.swap, ih]
  · intro a
    induction a with
    | nil =>
      intro b c hab hbc
      cases b with
      | nil =>
        cases c with
        | nil => simp [lexCmp] at hbc
        | cons z zs => simp [lexCmp]
      | cons y ys =>
        cases c with
        | nil => simp [lexCmp] at hbc
        | cons z zs => simp [lexCmp]
    | cons x xs ih =>
      intro b c hab hbc
      cases b with
      | nil => simp [lexCmp] at hab
      | cons y ys =>
        cases c with
        | nil => simp [lexCmp] at hbc
        | cons z zs =>
          unfold lexCmp at hab hbc ⊢
          rw [Ordering.then_eq_lt] at hab hbc ⊢
          rcases hab with hab | ⟨hab, hab2⟩ <;>
            rcases hbc with hbc | ⟨hbc, hbc2⟩
          · exact Or.inl (cmpLaws_chCmp.ltTrans x y z hab hbc)
          · exact Or.inl (by rw [← cmpLaws_chCmp.eqCongrR hbc]; exact hab)
          · exact Or.inl (by rw [← cmpLaws_chCmp.eqCongrL x y z hab]; exact hbc)
          · exact Or.inr ⟨by rw [← cmpLaws_chCmp.eqCongrL x y z hab]; exact hbc,
              ih ys zs hab2 hbc2⟩
  · intro a b c hab
    rw [lexCmp_eq_eq.mp hab]

theorem cmpLaws_strCmp : CmpLaws strCmp :=
  cmpLaws_lexCmp.cmpByLaws String.data

theorem strCmp_eq_eq {a b : String} : strCmp a b = .eq ↔ a = b := by
  unfold strCmp
  rw [lexCmp_eq_eq]
  constructor
  · intro hd
    cases a; cases b; exact congrArg String.mk hd
  · intro he; rw [he]


/-! ### `keep="last"` deduplication

`drop_duplicates(keys, keep="last")` and `groupby(keys).tail(1)` both retain,
for every key, exactly the last row bearing that key in the current frame
order, keeping frame order otherwise. -/

/-- Keep only the last occurrence of each key, preserving relative order. -/
def dedupKeepLast {α κ : Type} [DecidableEq κ] (key : α → κ) :
    List α → List α
  | [] => []
  | x :: xs =>
    if xs.any (fun y => decide (key y = key x)) then dedupKeepLast key xs
    else x :: dedupKeepLast key xs

theorem dedupKeepLast_subset {α κ : Type} [DecidableEq κ] {key : α → κ} :
    ∀ {l : List α} {r : α}, r ∈ dedupKeepLast key l → r ∈ l := by
  intro l
  induction l with
  | nil => intro r hr; simp [dedupKeepLast] at hr
  | cons x xs ih =>
    intro r hr
    unfold dedupKeepLast at hr
    split at hr
    · exact List.mem_cons_of_mem x (ih hr)
    · rcases List.mem_cons.mp hr with hr | hr
      · exact hr ▸ List.mem_cons_self x xs
      · exact List.mem_cons_of_mem x (ih hr)

theorem dedupKeepLast_nodupKeys {α κ : Type} [DecidableEq κ] {key : α → κ} :
    ∀ {l : List α}, ((dedupKeepLast key l).map key).Nodup := by
  intro l
  induction l with
  | nil => simp [dedupKeepLast]
  | cons x xs ih =>
    unfold dedupKeepLast
    split
    · exact ih
    · next hno =>
      simp only [List.map_cons, List.nodup_cons]
      refine ⟨?_, ih⟩
      intro hmem
      rcases List.mem_map.mp hmem with ⟨y, hy, hky⟩
      have hy' : y ∈ xs := dedupKeepLast_subset hy
      exact hno (List.any_eq_true.mpr ⟨y, hy', by simp [hky]⟩)

theorem mem_keys_dedupKeepLast {α κ : Type} [DecidableEq κ] {key : α → κ} :
    ∀ {l : List α} {k : κ}, k ∈ l.map key →
      k ∈ (dedupKeepLast key l).map key := by
  intro l
  induction l with
  | nil => intro k hk; simp at hk
  | cons x xs ih =>
    intro k hk
    unfold dedupKeepLast
    split
    · next hany =>
      rcases List.mem_map.mp hk with ⟨y, hy, hky⟩
      rcases List.mem_cons.mp hy with rfl | hy'
      · rcases List.any_eq_true.mp hany with ⟨z, hz, hkz⟩
        have : key z = key y := of_decide_eq_true hkz
        exact ih (List.mem_map.mpr ⟨z, hz, by rw [this, hky]⟩)
      · exact ih (List.mem_map.mpr ⟨y, hy', hky⟩)
    · next hno =>
      rcases List.mem_map.mp hk with ⟨y, hy, hky⟩
      rcases List.mem_cons.mp hy with rfl | hy'
      · exact List.mem_map.mpr ⟨y, List.mem_cons_self _ _, hky⟩
      · exact List.mem_cons_of_mem _ (ih (List.mem_map.mpr ⟨y, hy', hky⟩))

theorem dedupKeepLast_isMax {α κ : Type} [DecidableEq κ] {key : α → κ}
    (score : α → Nat) :
    ∀ {l : List α},
      l.Pairwise (fun a b => key a = key b → score a ≤ score b) →
      ∀ r ∈ dedupKeepLast key l, ∀ x ∈ l, key x = key r → score x ≤ score r := by
  intro l
  induction l with
  | nil => intro _ r hr; simp [dedupKeepLast] at hr
  | cons x xs ih =>
    intro hp r hr y hy hkey
    have hpx : ∀ z ∈ xs, key x = key z → score x ≤ score z :=
      fun z hz => List.rel_of_pairwise_cons hp hz
    have hptail : xs.Pairwise (fun a b => key a = key b → score a ≤ score b) :=
      List.Pairwise.of_cons hp
    unfold dedupKeepLast at hr
    split at hr
    · rcases List.mem_cons.mp hy with rfl | hy'
      · have hrx : r ∈ xs := dedupKeepLast_subset hr
        exact hpx r hrx hkey
      · exact ih hptail r hr y hy' hkey
    · next hno =>
      rcases List.mem_cons.mp hr with rfl | hr'
      · rcases List.mem_cons.mp hy with rfl | hy'
        · exact le_refl _
        · exfalso
          apply hno
          exact List.any_eq_true.mpr ⟨y, hy', by simp [hkey]⟩
      · rcases List.mem_cons.mp hy with rfl | hy'
        · exfalso
          apply hno
          exact List.any_eq_true.mpr
            ⟨r, dedupKeepLast_subset hr', by simp [hkey]⟩
        · exact ih hptail r hr' y hy' hkey

theorem filter_eq_single_of_nodupKeys {α κ : Type} [DecidableEq κ]
    {key : α → κ} :
    ∀ {l : List α} {r : α} {k : κ}, (l.map key).Nodup → r ∈ l → key r = k →
      l.filter (fun x => decide (key x = k)) = [r] := by
  intro l
  induction l with
  | nil => intro r k _ hr; simp at hr
  | cons x xs ih =>
    intro r k hnd hr hk
    have hnd1 : key x ∉ xs.map key := (List.nodup_cons.mp hnd).1
    have hnd2 : (xs.map key).Nodup := (List.nodup_cons.mp hnd).2
    rcases List.mem_cons.mp hr with rfl | hr'
    · rw [List.filter_cons_of_pos (by simp [hk])]
      have : xs.filter (fun x => decide (key x = k)) = [] := by
        rw [List.filter_eq_nil_iff]
        intro a ha hka
        apply hnd1
        have : key a = k := of_decide_eq_true hka
        exact List.mem_map.mpr ⟨a, ha, by rw [this, hk]⟩
      rw [this]
    · have hxk : key x ≠ k := by
        intro hxe
        apply hnd1
        exact List.mem_map.mpr ⟨r, hr', by rw [hk, hxe]⟩
      rw [List.filter_cons_of_neg (by simp [hxk])]
      exact ih hnd2 hr' hk

/-! ### Stable sort by a lawful comparator -/

/-- pandas `sort_values` (stable lexicographic sort) and Python's stable
`sorted`, modelled by Mathlib's stable insertion sort under the reflexive
total order `cmp a b ≠ .gt`. -/
def sortByCmp {α : Type} (cmp : α → α → Ordering) (l : List α) : List α :=
  List.insertionSort (fun a b => cmp a b ≠ .gt) l

theorem sortByCmp_sorted {α : Type} {cmp : α → α → Ordering} (h : CmpLaws cmp)
    (l : List α) :
    List.Sorted (fun a b => cmp a b ≠ .gt) (sortByCmp cmp l) := by
  haveI : IsTotal α (fun a b => cmp a b ≠ .gt) := ⟨fun a b => by
    by_cases hg : cmp a b = .gt
    · refine Or.inr ?_
      rw [h.gtSwap hg]; decide
    · exact Or.inl hg⟩
  haveI : IsTrans α (fun a b => cmp a b ≠ .gt) :=
    ⟨fun a b c hab hbc => h.leTrans hab hbc⟩
  exact List.sorted_insertionSort _ l

theorem mem_sortByCmp {α : Type} {cmp : α → α → Ordering} {l : List α}
    {x : α} : x ∈ sortByCmp cmp l ↔ x ∈ l :=
  (List.perm_insertionSort _ l).mem_iff

theorem map_sortByCmp_mem {α β : Type} {cmp : α → α → Ordering} {l : List α}
    (f : α → β) {y : β} : y ∈ (sortByCmp cmp l).map f ↔ y ∈ l.map f := by
  constructor
  · intro hy
    rcases List.mem_map.mp hy with ⟨x, hx, hfx⟩
    exact List.mem_map.mpr ⟨x, mem_sortByCmp.mp hx, hfx⟩
  · intro hy
    rcases List.mem_map.mp hy with ⟨x, hx, hfx⟩
    exact List.mem_map.mpr ⟨x, mem_sortByCmp.mpr hx, hfx⟩

/-! ### Positional characterisation of `findSome?` -/

theorem findSome?_split {α β : Type} {f : α → Option β} {v : β} :
    ∀ {l : List α}, l.findSome? f = some v →
      ∃ pre a post, l = pre ++ a :: post ∧ f a = some v ∧
        ∀ x ∈ pre, f x = none := by
  intro l
  induction l with
  | nil => intro hl; simp [List.findSome?] at hl
  | cons x xs ih =>
    intro hl
    rw [List.findSome?_cons] at hl
    cases hfx : f x with
    | some w =>
      rw [hfx] at hl
      refine ⟨[], x, xs, rfl, ?_, by simp⟩
      rw [hfx]; exact hl
    | none =>
      rw [hfx] at hl
      rcases ih hl with ⟨pre, a, post, heq, hfa, hpre⟩
      refine ⟨x :: pre, a, post, by rw [heq]; rfl, hfa, ?_⟩
      intro z hz
      rcases List.mem_cons.mp hz with rfl | hz'
      · exact hfx
      · exact hpre z hz'

theorem range_findSome?_some {β : Type} {f : Nat → Option β} {v : β} {n : Nat}
    (h : (List.range n).findSome? f = some v) :
    ∃ i, i < n ∧ f i = some v ∧ ∀ j, j < i → f j = none := by
  rcases findSome?_split h with ⟨pre, a, post, heq, hfa, hpre⟩
  have hlen : pre.length < n := by
    have : (List.range n).length = n := List.length_range n
    rw [heq] at this
    simp at this
    omega
  have hpre_eq : pre = List.range pre.length := by
    have h1 : (List.range n).take pre.length = pre := by
      rw [heq]; exact List.take_left pre (a :: post)
    rw [List.take_range] at h1
    have hmin : pre.length ⊓ n = pre.length := min_eq_left (le_of_lt hlen)
    rw [hmin] at h1
    exact h1.symm
  have ha : a = pre.length := by
    have hgl : pre.length < (List.range n).length := by simpa using hlen
    have h2 : (List.range n).get ⟨pre.length, hgl⟩ = a := by
      rw [List.get_eq_getElem, List.getElem_of_eq heq hgl,
        List.getElem_append_right (le_refl pre.length)]
      simp
    rw [List.get_eq_getElem, List.getElem_range] at h2
    exact h2.symm
  refine ⟨pre.length, hlen, by rw [← ha]; exact hfa, ?_⟩
  intro j hj
  apply hpre
  rw [hpre_eq]
  exact List.mem_range.mpr hj


/-! ## `build_dim_tac_subcodes_from_illustrative.py` -/

/-- A raw sheet as read by `pd.read_excel(..., header=None)`: a rectangular
cell grid addressed as `df_raw.iat[r, c]`. -/
structure Grid where
  nrows : Nat
  ncols : Nat
  cell : Nat → Nat → CValue

/-- The score examined at candidate position `(r, c)` by
`find_header_row_and_subcode_col`: among the string cells of column `c` in
the look-ahead window `range(r+1, min(r+15, nrows))`, the number whose
stripped value matches the subcode pattern. -/
def subcodeHits (g : Grid) (r c : Nat) : Nat :=
  ((List.range' (r + 1) (min (r + 15) g.nrows - (r + 1))).filterMap
    (fun rr => match g.cell rr c with
      | .str v => some (strip v)
      | _ => none)).countP matchSubcodeRe

/-- `find_header_row_and_subcode_col`: scan rows `0 ≤ r < min(40, nrows)`
and, within each row, columns `0 ≤ c < ncols`, returning the first `(r, c)`
whose look-ahead window contains at least 3 subcode-like values. -/
def findHeaderRowAndSubcodeCol (g : Grid) : Option (Nat × Nat) :=
  (List.range (min 40 g.nrows)).findSome? (fun r =>
    (List.range g.ncols).findSome? (fun c =>
      if 3 ≤ subcodeHits g r c then some (r, c) else none))

/-- One record of `mappings/dim_tac_subcodes_by_year.csv`. -/
structure SubcodeRec where
  fy : String
  WorkSheetName : String
  SubCode : String
  subcode_label : String
  source_file : String
deriving DecidableEq, Repr

/-- The body of the label loop of `extract_sheet_subcodes` for one cell:
the stripped value when the cell is a string with non-empty stripped value
(`isinstance(v, str) and v.strip()`), nothing otherwise. -/
def labelCellValue (g : Grid) (r c : Nat) : Option String :=
  match g.cell r c with
  | .str v => if strip v = "" then none else some (strip v)
  | _ => none

/-- The label loop of `extract_sheet_subcodes`: the first (leftmost)
non-empty stripped string cell strictly left of `col` in row `r`, or `""`. -/
def labelLeft (g : Grid) (r col : Nat) : String :=
  ((List.range col).findSome? (labelCellValue g r)).getD ""

/-- The body of the row loop of `extract_sheet_subcodes` for row `r`:
a record when the cell in the subcode column is a string whose stripped
value matches the subcode pattern, skipped otherwise. -/
def rowRecord (g : Grid) (fy sheet srcFile : String) (col r : Nat) :
    Option SubcodeRec :=
  match g.cell r col with
  | .str sub0 =>
    if matchSubcodeRe (strip sub0) then
      some { fy := fy, WorkSheetName := sheet, SubCode := strip sub0,
             subcode_label := labelLeft g r col, source_file := srcFile }
    else none
  | _ => none

/-- `extract_sheet_subcodes`: `None` when header detection fails or no row
below the header yields a record. -/
def extractSheetSubcodes (g : Grid) (sheet fy srcFile : String) :
    Option (List SubcodeRec) :=
  match findHeaderRowAndSubcodeCol g with
  | none => none
  | some (hdr, col) =>
    if ((List.range' (hdr + 1) (g.nrows - (hdr + 1))).filterMap
        (rowRecord g fy sheet srcFile col)).isEmpty then
      none
    else
      some ((List.range' (hdr + 1) (g.nrows - (hdr + 1))).filterMap
        (rowRecord g fy sheet srcFile col))

/-- `str(sheet).strip().lower().startswith("tac")`. -/
def startsWithTac (name : String) : Bool :=
  List.isPrefixOf "tac".data ((strip name).data.map Char.toLower)

/-- A named sheet of a workbook. -/
structure Sheet where
  name : String
  grid : Grid

/-- The dedup key of the subcode dimension: `["fy", "WorkSheetName",
"SubCode"]`. -/
def subKey (r : SubcodeRec) : String × String × String :=
  (r.fy, r.WorkSheetName, r.SubCode)

/-- `sort_values(["fy", "WorkSheetName", "SubCode"])` comparator. -/
def subRecCmp : SubcodeRec → SubcodeRec → Ordering :=
  cmpThen (cmpBy strCmp (fun r => r.fy))
    (cmpThen (cmpBy strCmp (fun r => r.WorkSheetName))
      (cmpBy strCmp (fun r => r.SubCode)))

/-- The final dedup of `main()`: sort on the key, then
`drop_duplicates(["fy", "WorkSheetName", "SubCode"], keep="last")`. -/
def dedupSubcodes (l : List SubcodeRec) : List SubcodeRec :=
  dedupKeepLast subKey (sortByCmp subRecCmp l)

/-- The sheet loop of `main()` for one workbook: sheets whose stripped,
lowercased name does not start with `"tac"` are skipped, and so are sheets
for which `extract_sheet_subcodes` returns `None` or an empty frame. -/
def processSheets (fy srcFile : String) (sheets : List Sheet) :
    List (List SubcodeRec) :=
  sheets.filterMap (fun sh =>
    if startsWithTac sh.name then
      match extractSheetSubcodes sh.grid sh.name fy srcFile with
      | some recs => if recs.length > 0 then some recs else none
      | none => none
    else none)

/-- A workbook input to `main()`: file name, inferred financial year, and
its sheets. -/
structure Workbook where
  fileName : String
  fy : String
  sheets : List Sheet

/-- `main()` of the subcode builder over its input workbooks: collect the
per-sheet frames, raise `ValueError` when none were collected anywhere,
otherwise concatenate and deduplicate. -/
def mainSubcodes (workbooks : List Workbook) :
    Except String (List SubcodeRec) :=
  let frames :=
    (workbooks.map (fun wb => processSheets wb.fy wb.fileName wb.sheets)).flatten
  if frames.isEmpty then
    .error "No subcode mappings extracted. (Header detection likely needs tweaking.)"
  else
    .ok (dedupSubcodes frames.flatten)

/-! ## `build_canonical.py` -/

/-- The sheet-location step of `load_all_data`: the first sheet whose
normalised name equals `normKey "All data"`; on failure the raised
`ValueError` lists the available sheet names, modelled by the error payload
carrying that list. -/
def findAllDataSheet (sheets : List String) : Except (List String) String :=
  match sheets.find? (fun s => decide (normKey s = normKey "All data")) with
  | some s => .ok s
  | none => .error sheets

/-- The lookup dict `{norm(c): c for c in df.columns}`: later columns
overwrite earlier ones on normalised-name collisions, so look from the
right. -/
def colLookup (columns : List String) (k : String) : Option String :=
  columns.reverse.find? (fun c => decide (normKey c = k))

/-- `pick_col(df, candidates)` from
`build_dim_tac_lines_from_illustrative_all_years.py` (the same
first-match-wins pattern as the `next(...)` generator expressions over
`org_candidates`/`amount_candidates` in `build_canonical.py`): the first
candidate whose normalised name is a key of the column dict wins. -/
def pickCol (columns : List String) (candidates : List String) :
    Option String :=
  candidates.findSome? (fun c => colLookup columns (normKey c))

/-- Digit-run value, e.g. `digitsVal ['1','2','3'] = 123`. -/
def digitsVal (ds : List Char) : Nat :=
  ds.foldl (fun n c => n * 10 + (c.toNat - 48)) 0

/-- Model of the string side of `pd.to_numeric(..., errors="coerce")`:
an optionally signed decimal literal (digits with an optional fractional
part) parses to its value; anything else coerces to null.  (Exponent and
other exotic float forms are treated as non-numeric; the properties proved
below do not depend on which strings parse.) -/
def parseDecimal (s : String) : Option ℚ :=
  let cs := (strip s).data
  let neg : Bool := match cs with | '-' :: _ => true | _ => false
  let cs1 : List Char :=
    match cs with
    | '-' :: t => t
    | '+' :: t => t
    | t => t
  let ip := cs1.takeWhile isDigitCh
  let rest := cs1.drop ip.length
  let body : Option ℚ :=
    match rest with
    | [] => if ip.isEmpty then none else some ((digitsVal ip : ℚ))
    | '.' :: fp =>
      if fp.all isDigitCh && !(ip.isEmpty && fp.isEmpty) then
        some ((digitsVal ip : ℚ) + (digitsVal fp : ℚ) / ((10 : ℚ) ^ fp.length))
      else none
    | _ => none
  body.map (fun q => if neg then -q else q)

/-- `pd.to_numeric(cell, errors="coerce")` on one cell: numeric cells pass
through, blank/NaN cells stay null, strings parse as decimals or coerce to
null.  Total — coercion never raises. -/
def toNumericCoerce : CValue → Option ℚ
  | .num q => some q
  | .blank => none
  | .str s => parseDecimal s

/-- A row of the located data sheet after the rename of lines 78–86 of
`build_canonical.py`, before amount coercion. -/
structure RawRow where
  org_name_raw : CValue
  WorkSheetName : CValue
  TableID : CValue
  MainCode : CValue
  RowNumber : CValue
  SubCode : CValue
  amount : CValue
deriving DecidableEq, Repr

/-- A canonical fact row produced by `load_all_data` (before the `fy` /
`sector` / `source_file` columns are appended in `main()`). -/
structure CanonRow where
  org_name_raw : CValue
  WorkSheetName : CValue
  TableID : CValue
  MainCode : CValue
  RowNumber : CValue
  SubCode : CValue
  amount : Option ℚ
deriving DecidableEq, Repr

/-- One row of lines 88–92 of `build_canonical.py`: keep the required
columns and coerce `amount`. -/
def coerceRow (r : RawRow) : CanonRow :=
  { org_name_raw := r.org_name_raw, WorkSheetName := r.WorkSheetName,
    TableID := r.TableID, MainCode := r.MainCode, RowNumber := r.RowNumber,
    SubCode := r.SubCode, amount := toNumericCoerce r.amount }

/-- Lines 88–92 of `build_canonical.py` over the whole sheet: a total
function — every input row yields exactly one output row and no amount
value can make it raise. -/
def coerceAmounts (rows : List RawRow) : List CanonRow := rows.map coerceRow


/-! ## `debug_illustrative_scan.py` -/

/-- `KEYWORDS = [norm(x) for x in ["Table", "Table ID", "Main", "Main code",
"Sub", "Sub code", "Row", "Row number", "Description"]]`. -/
def debugKeywords : List String :=
  [normKey "Table", normKey "Table ID", normKey "Main", normKey "Main code",
   normKey "Sub", normKey "Sub code", normKey "Row", normKey "Row number",
   normKey "Description"]

/-- `str(x)` of a cell for the `" ".join(... if str(x) != "nan")` row text:
blank/NaN cells are dropped; numeric cells contribute their rendering (the
exact float rendering is immaterial to the properties proved below, so the
numerator's decimal digits stand in for it). -/
def cellTextStr : CValue → Option String
  | .str s => some s
  | .num q => some (toString q.num)
  | .blank => none

/-- `row_vals` joined with `" "`, as a character list. -/
def rowText (row : List CValue) : List Char :=
  List.intercalate " ".data ((row.filterMap cellTextStr).map String.data)

/-- `score = sum(1 for k in KEYWORDS if k in row_n)` where
`row_n = norm(row_vals)`. -/
def rowScore (row : List CValue) : Nat :=
  debugKeywords.countP (fun k => listContains (normKey ⟨rowText row⟩).data k.data)

/-- `found_rows`: the `(row index, score)` pairs of rows clearing the
threshold `score >= 3`, in row order. -/
def foundRows (rows : List (List CValue)) : List (Nat × Nat) :=
  rows.enum.filterMap (fun p =>
    let sc := rowScore p.2
    if 3 ≤ sc then some (p.1, sc) else none)

/-- The key `lambda x: (-x[1], x[0])` of the debug scan's `sorted(...)`:
descending score, then ascending row index. -/
def debugCmp : (Nat × Nat) → (Nat × Nat) → Ordering :=
  cmpThen (cmpBy (fun a b => natCmp b a) (fun p => p.2))
    (cmpBy natCmp (fun p => p.1))

/-- `sorted(found_rows, key=lambda x: (-x[1], x[0]))[0]` — `none` when no
row cleared the threshold (the scan prints nothing for that sheet). -/
def bestHeaderRow (rows : List (List CValue)) : Option (Nat × Nat) :=
  (sortByCmp debugCmp (foundRows rows)).head?

/-! ## `build_dim_tac_lines_from_mapping.py` -/

/-- `keywords = ["mapping", "schedule", "lookup", "reference", "code"]`,
normalised. -/
def mappingKeywords : List String :=
  [normKey "mapping", normKey "schedule", normKey "lookup",
   normKey "reference", normKey "code"]

/-- `score = sum(1 for k in kw if k in ns)` for one sheet name. -/
def mappingScore (sheetName : String) : Nat :=
  mappingKeywords.countP (fun k => listContains (normKey sheetName).data k.data)

/-- `scored.sort(reverse=True)` orders `(score, sheet)` tuples descending;
sorting by this reversed comparator and taking the head models
`scored[0]`. -/
def mappingCmp : (Nat × String) → (Nat × String) → Ordering :=
  cmpThen (cmpBy (fun a b => natCmp b a) (fun p => p.1))
    (cmpBy (fun a b => strCmp b a) (fun p => p.2))

/-- `find_mapping_sheet`: keep sheets with positive score, raise (with the
available sheet names) when none qualifies, else return the best-scoring
sheet name. -/
def findMappingSheet (sheets : List String) : Except (List String) String :=
  let scored := sheets.filterMap (fun s =>
    let sc := mappingScore s
    if 0 < sc then some (sc, s) else none)
  match (sortByCmp mappingCmp scored).head? with
  | none => .error sheets
  | some p => .ok p.2

/-- A standardised mapping row (output of `standardise_mapping_columns`):
the key cells keep their raw values, `RowNumber` has been coerced to an
integer (rows failing coercion were dropped before this point). -/
structure LineRec where
  TableID : CValue
  MainCode : CValue
  SubCode : CValue
  RowNumber : Int
  line_label : String
  fy_source : String
deriving DecidableEq, Repr

/-- `fy_sort_key`: `re.match(r"(\d{4})-\d{2}", str(fy))` — four digits, a
dash and two digits as a prefix — parses to the value of the leading four
digits; any other string (e.g. `"unknown"`) sorts as 0. -/
def fySortKey (fy : String) : Nat :=
  match fy.data with
  | a :: b :: c :: d :: '-' :: e :: f :: _ =>
    if isDigitCh a && isDigitCh b && isDigitCh c && isDigitCh d &&
       isDigitCh e && isDigitCh f then
      digitsVal [a, b, c, d]
    else 0
  | _ => 0

/-- Three-way comparison on integers. -/
def intCmp (a b : Int) : Ordering :=
  if a < b then .lt else if b < a then .gt else .eq

def cvTag : CValue → Nat
  | .str _ => 0
  | .num _ => 1
  | .blank => 2

def cvStr : CValue → String
  | .str s => s
  | _ => ""

def cvNum : CValue → ℚ
  | .num q => q
  | _ => 0

/-- A lawful total comparator on cell values (tag, then value), standing in
for the order pandas uses when sorting these columns; the deduplication
theorems depend only on its comparator laws, not on how distinct keys are
ordered. -/
def cvCmp : CValue → CValue → Ordering :=
  cmpThen (cmpBy natCmp cvTag)
    (cmpThen (cmpBy strCmp cvStr) (cmpBy qCmp cvNum))

/-- The `groupby` key `["TableID", "MainCode", "SubCode", "RowNumber"]`. -/
def lineKey (r : LineRec) : CValue × CValue × CValue × Int :=
  (r.TableID, r.MainCode, r.SubCode, r.RowNumber)

/-- `sort_values(["TableID", "MainCode", "SubCode", "RowNumber",
"fy_sort"])` comparator. -/
def lineCmp : LineRec → LineRec → Ordering :=
  cmpThen (cmpBy cvCmp (fun r => r.TableID))
    (cmpThen (cmpBy cvCmp (fun r => r.MainCode))
      (cmpThen (cmpBy cvCmp (fun r => r.SubCode))
        (cmpThen (cmpBy intCmp (fun r => r.RowNumber))
          (cmpBy natCmp (fun r => fySortKey r.fy_source)))))

/-- Lines 117–129 of `build_dim_tac_lines_from_mapping.py`: stable sort on
(key, fy_sort), then `groupby(key, as_index=False).tail(1)` — i.e. the last
row of each key group in sorted order. -/
def linesDim (rows : List LineRec) : List LineRec :=
  dedupKeepLast lineKey (sortByCmp lineCmp rows)

/-! ## `make_provider_dim_seed.py` -/

/-- A row of the canonical fact table `fact_tru_tac` (the fields used by
the provider roll-up and the enrichment joins). -/
structure Fact where
  org_name_raw : String
  WorkSheetName : String
  SubCode : String
  amount : Option ℚ
  fy : String
  sector : String
deriving DecidableEq, Repr

/-- A row of `mappings/dim_provider_seed.csv`. -/
structure ProvRow where
  sector : String
  org_name_raw : String
  first_fy_seen : String
  last_fy_seen : String
  rows : Nat
deriving DecidableEq, Repr

/-- SQL `MIN` on varchar: lexicographically least of two. -/
def strMin (a b : String) : String := if strCmp a b = .gt then b else a

/-- SQL `MAX` on varchar: lexicographically greatest of two. -/
def strMax (a b : String) : String := if strCmp a b = .lt then b else a

/-- `MIN` over a column (`""` on the empty list, which `GROUP BY` never
produces). -/
def listStrMin : List String → String
  | [] => ""
  | x :: xs => xs.foldl strMin x

/-- `MAX` over a column. -/
def listStrMax : List String → String
  | [] => ""
  | x :: xs => xs.foldl strMax x

/-- The `GROUP BY` key `(sector, org_name_raw)`. -/
def factPairKey (f : Fact) : String × String := (f.sector, f.org_name_raw)

/-- The rows of one `GROUP BY sector, org_name_raw` group. -/
def provGroup (facts : List Fact) (p : String × String) : List Fact :=
  facts.filter (fun f => decide (factPairKey f = p))

/-- The aggregate row of one provider group: `MIN(fy)`, `MAX(fy)`,
`COUNT(*)`. -/
def mkProvRow (facts : List Fact) (p : String × String) : ProvRow :=
  { sector := p.1, org_name_raw := p.2,
    first_fy_seen := listStrMin ((provGroup facts p).map (fun f => f.fy)),
    last_fy_seen := listStrMax ((provGroup facts p).map (fun f => f.fy)),
    rows := (provGroup facts p).length }

/-- The `dim_provider_seed` query: one row per distinct
`(sector, org_name_raw)` pair of the fact table, carrying `MIN(fy)`,
`MAX(fy)` and `COUNT(*)` of the pair's group.  (The query's final
`ORDER BY` only fixes presentation order and is not modelled; the
properties below are order-independent.) -/
def providerDim (facts : List Fact) : List ProvRow :=
  ((facts.map factPairKey).dedup).map (mkProvRow facts)

/-! ## `build_enriched_fact.py` -/

/-- A row of the hand-maintained `mappings/dim_provider.csv` (the fields
the enrichment query reads; `read_csv_auto` turns empty strings into
NULLs). -/
structure ProvDimRow where
  sector : String
  org_name_raw : String
  provider_id : Option String
  org_name_canonical : Option String
deriving DecidableEq, Repr

/-- A row of `mappings/dim_tac_subcodes_by_year.csv` as read back
(`subcode_label` may be NULL). -/
structure SubDimRow where
  fy : String
  WorkSheetName : String
  SubCode : String
  subcode_label : Option String
  source_file : String
deriving DecidableEq, Repr

/-- A row of the `dim_tac_subcodes_ws` view. -/
structure SubDimWsRow where
  fy : String
  ws_key : String
  SubCode : String
  subcode_label : Option String
  mapping_source_file : String
deriving DecidableEq, Repr

/-- The `dim_tac_subcodes_ws` view: normalise the worksheet name into
`ws_key`. -/
def toWsRow (m : SubDimRow) : SubDimWsRow :=
  { fy := m.fy, ws_key := normKey m.WorkSheetName, SubCode := m.SubCode,
    subcode_label := m.subcode_label, mapping_source_file := m.source_file }

/-- SQL `LEFT JOIN`: every left row survives — once per matching right row,
or once with a null right side when nothing matches. -/
def leftJoin {α β : Type} (l : List α) (r : List β) (onPred : α → β → Bool) :
    List (α × Option β) :=
  l.flatMap (fun a =>
    match r.filter (fun b => onPred a b) with
    | [] => [(a, none)]
    | ms => ms.map (fun b => (a, some b)))

/-- `f.sector = p.sector AND f.org_name_raw = p.org_name_raw`. -/
def provMatch (f : Fact) (p : ProvDimRow) : Bool :=
  decide (f.sector = p.sector) && decide (f.org_name_raw = p.org_name_raw)

/-- `f.fy = m.fy AND f.ws_key = m.ws_key AND f.SubCode = m.SubCode`. -/
def subMatch (f : Fact) (m : SubDimWsRow) : Bool :=
  decide (f.fy = m.fy) && decide (normKey f.WorkSheetName = m.ws_key) &&
  decide (f.SubCode = m.SubCode)

/-- A row of `fact_tru_tac_enriched`. -/
structure EnrichedRow where
  f : Fact
  provider_id : Option String
  org_name_canonical : Option String
  subcode_label : Option String
  mapping_source_file : Option String
  is_unmapped : Nat
deriving DecidableEq, Repr

/-- The `CREATE OR REPLACE TABLE fact_tru_tac_enriched` statement:
`fact LEFT JOIN dim_provider LEFT JOIN dim_tac_subcodes_ws`, with
`is_unmapped = CASE WHEN m.subcode_label IS NULL THEN 1 ELSE 0 END` (null
both when no mapping row matched and when a matched row has a null
label). -/
def enrichedPairs (fact : List Fact) (prov : List ProvDimRow)
    (sub : List SubDimRow) :
    List ((Fact × Option ProvDimRow) × Option SubDimWsRow) :=
  leftJoin (leftJoin fact prov provMatch) (sub.map toWsRow)
    (fun fp m => subMatch fp.1 m)

/-- The `SELECT` list of the enrichment statement for one joined row. -/
def mkEnriched (pair : (Fact × Option ProvDimRow) × Option SubDimWsRow) :
    EnrichedRow :=
  { f := pair.1.1,
    provider_id := pair.1.2.bind (fun p => p.provider_id),
    org_name_canonical := pair.1.2.bind (fun p => p.org_name_canonical),
    subcode_label := pair.2.bind (fun m => m.subcode_label),
    mapping_source_file := pair.2.map (fun m => m.mapping_source_file),
    is_unmapped :=
      if (pair.2.bind fun m => m.subcode_label) = none then 1 else 0 }

def buildEnriched (fact : List Fact) (prov : List ProvDimRow)
    (sub : List SubDimRow) : List EnrichedRow :=
  (enrichedPairs fact prov sub).map mkEnriched

/-- A row of the QC summary printed by `build_enriched_fact.py`. -/
structure QCRow where
  fy : String
  sector : String
  unmapped_rows : Nat
  total_rows : Nat
  abs_total : Rat
  abs_unmapped : Rat
  share_abs_unmapped : Option Rat
deriving Repr

/-- `ABS(amount)` with SQL null semantics: a null amount contributes
nothing to `SUM`. -/
def absAmt (e : EnrichedRow) : ℚ :=
  match e.f.amount with
  | some q => |q|
  | none => 0

/-- The rows of one `GROUP BY fy, sector` group. -/
def qcGroup (enr : List EnrichedRow) (fy sector : String) :
    List EnrichedRow :=
  enr.filter (fun e => decide (e.f.fy = fy) && decide (e.f.sector = sector))

/-- One row of the QC summary query, for group `(fy, sector)`:
`SUM(is_unmapped)`, `COUNT(*)`, `SUM(ABS(amount))`, the unmapped share of
absolute amount, and `NULLIF` guarding the division. -/
def qcRow (enr : List EnrichedRow) (fy sector : String) : QCRow :=
  { fy := fy, sector := sector,
    unmapped_rows :=
      ((qcGroup enr fy sector).map (fun e => e.is_unmapped)).sum,
    total_rows := (qcGroup enr fy sector).length,
    abs_total := ((qcGroup enr fy sector).map absAmt).sum,
    abs_unmapped :=
      ((qcGroup enr fy sector).map
        (fun e => if e.is_unmapped = 1 then absAmt e else 0)).sum,
    share_abs_unmapped :=
      if ((qcGroup enr fy sector).map absAmt).sum = 0 then none
      else some
        (((qcGroup enr fy sector).map
            (fun e => if e.is_unmapped = 1 then absAmt e else 0)).sum /
          ((qcGroup enr fy sector).map absAmt).sum) }


/-! ### Derived comparator laws for the concrete comparators -/

theorem cmpLaws_rev {α : Type} {cmp : α → α → Ordering} (h : CmpLaws cmp) :
    CmpLaws (fun a b => cmp b a) := by
  constructor
  · intro a b; exact h.swap b a
  · intro a b c hab hbc; exact h.ltTrans c b a hbc hab
  · intro a b c hab
    exact h.eqCongrR hab

theorem cmpLaws_intCmp : CmpLaws intCmp := by
  constructor
  · intro a b
    unfold intCmp
    rcases lt_trichotomy a b with hl | he | hg
    · simp [hl, not_lt_of_gt hl]; rfl
    · simp [he, lt_irrefl]; rfl
    · simp [hg, not_lt_of_gt hg]; rfl
  · intro a b c hab hbc
    unfold intCmp at *
    by_cases h1 : a < b
    · by_cases h2 : b < c
      · simp [lt_trans h1 h2, not_lt_of_gt (lt_trans h1 h2)]
      · by_cases h3 : c < b
        · simp [h2, h3] at hbc
        · have : b = c := le_antisymm (le_of_not_lt h3) (le_of_not_lt h2)
          subst this; simp [h1, not_lt_of_gt h1]
    · by_cases h4 : b < a
      · simp [h1, h4] at hab
      · have : a = b := le_antisymm (le_of_not_lt h4) (le_of_not_lt h1)
        subst this; exact hbc
  · intro a b c hab
    unfold intCmp at hab
    have : a = b := by
      by_cases h1 : a < b
      · simp [h1] at hab
      · by_cases h2 : b < a
        · simp [h1, h2] at hab
        · exact le_antisymm (le_of_not_lt h2) (le_of_not_lt h1)
    rw [this]

theorem cmpLaws_cvCmp : CmpLaws cvCmp :=
  cmpLaws_cmpThen (cmpLaws_natCmp.cmpByLaws cvTag)
    (cmpLaws_cmpThen (cmpLaws_strCmp.cmpByLaws cvStr)
      (cmpLaws_qCmp.cmpByLaws cvNum))

theorem cmpLaws_lineCmp : CmpLaws lineCmp :=
  cmpLaws_cmpThen (cmpLaws_cvCmp.cmpByLaws (fun r => r.TableID))
    (cmpLaws_cmpThen (cmpLaws_cvCmp.cmpByLaws (fun r => r.MainCode))
      (cmpLaws_cmpThen (cmpLaws_cvCmp.cmpByLaws (fun r => r.SubCode))
        (cmpLaws_cmpThen (cmpLaws_intCmp.cmpByLaws (fun r => r.RowNumber))
          (cmpLaws_natCmp.cmpByLaws (fun r => fySortKey r.fy_source)))))

theorem cmpLaws_subRecCmp : CmpLaws subRecCmp :=
  cmpLaws_cmpThen (cmpLaws_strCmp.cmpByLaws (fun r => r.fy))
    (cmpLaws_cmpThen (cmpLaws_strCmp.cmpByLaws (fun r => r.WorkSheetName))
      (cmpLaws_strCmp.cmpByLaws (fun r => r.SubCode)))

theorem cmpLaws_debugCmp : CmpLaws debugCmp :=
  cmpLaws_cmpThen ((cmpLaws_rev cmpLaws_natCmp).cmpByLaws (fun p => p.2))
    (cmpLaws_natCmp.cmpByLaws (fun p => p.1))

theorem cmpLaws_mappingCmp : CmpLaws mappingCmp :=
  cmpLaws_cmpThen ((cmpLaws_rev cmpLaws_natCmp).cmpByLaws (fun p => p.1))
    ((cmpLaws_rev cmpLaws_strCmp).cmpByLaws (fun p => p.2))

/-! ### Misc list helpers -/

theorem eq_of_mem_of_nodupKeys {α κ : Type} [DecidableEq κ] {key : α → κ}
    {l : List α} (hnd : (l.map key).Nodup) {a b : α} (ha : a ∈ l) (hb : b ∈ l)
    (hk : key a = key b) : a = b := by
  have h1 := filter_eq_single_of_nodupKeys hnd ha rfl
  have hbf : b ∈ l.filter (fun x => decide (key x = key a)) :=
    List.mem_filter.mpr ⟨hb, by simp [hk]⟩
  rw [h1] at hbf
  exact (List.mem_singleton.mp hbf).symm

theorem natCmp_ne_gt_iff {a b : Nat} : natCmp a b ≠ .gt ↔ a ≤ b := by
  rw [Ne, natCmp_eq_gt, not_lt]

/-! ### `MIN`/`MAX` fold properties -/

theorem foldl_strMin_mem : ∀ (xs : List String) (a : String),
    xs.foldl strMin a ∈ a :: xs := by
  intro xs
  induction xs with
  | nil => intro a; simp
  | cons x xs ih =>
    intro a
    rw [List.foldl_cons]
    rcases List.mem_cons.mp (ih (strMin a x)) with h | h
    · rw [h]
      unfold strMin
      split
      · exact List.mem_cons_of_mem _ (List.mem_cons_self _ _)
      · exact List.mem_cons_self _ _
    · exact List.mem_cons_of_mem _ (List.mem_cons_of_mem _ h)

theorem foldl_strMin_le : ∀ (xs : List String) (a : String),
    ∀ y ∈ a :: xs, strCmp (xs.foldl strMin a) y ≠ .gt := by
  intro xs
  induction xs with
  | nil =>
    intro a y hy
    have hya : y = a := by simpa using hy
    rw [List.foldl_nil, hya, cmpLaws_strCmp.refl]
    decide
  | cons x xs ih =>
    intro a y hy
    rw [List.foldl_cons]
    have hle_a : strCmp (strMin a x) a ≠ .gt := by
      unfold strMin
      split
      · next hg => rw [cmpLaws_strCmp.gtSwap hg]; decide
      · rw [cmpLaws_strCmp.refl]; decide
    have hle_x : strCmp (strMin a x) x ≠ .gt := by
      unfold strMin
      split
      · rw [cmpLaws_strCmp.refl]; decide
      · next hng =>
        cases hc : strCmp a x with
        | lt => simp [hc]
        | eq => simp [hc]
        | gt => exact absurd hc hng
    have hhead : strCmp (xs.foldl strMin (strMin a x)) (strMin a x) ≠ .gt :=
      ih (strMin a x) (strMin a x) (List.mem_cons_self _ _)
    rcases List.mem_cons.mp hy with hEq | hy'
    · rw [hEq]
      exact cmpLaws_strCmp.leTrans hhead hle_a
    · rcases List.mem_cons.mp hy' with hEq | hy2
      · rw [hEq]
        exact cmpLaws_strCmp.leTrans hhead hle_x
      · exact ih (strMin a x) y (List.mem_cons_of_mem _ hy2)

theorem foldl_strMax_mem : ∀ (xs : List String) (a : String),
    xs.foldl strMax a ∈ a :: xs := by
  intro xs
  induction xs with
  | nil => intro a; simp
  | cons x xs ih =>
    intro a
    rw [List.foldl_cons]
    rcases List.mem_cons.mp (ih (strMax a x)) with h | h
    · rw [h]
      unfold strMax
      split
      · exact List.mem_cons_of_mem _ (List.mem_cons_self _ _)
      · exact List.mem_cons_self _ _
    · exact List.mem_cons_of_mem _ (List.mem_cons_of_mem _ h)

theorem foldl_strMax_ge : ∀ (xs : List String) (a : String),
    ∀ y ∈ a :: xs, strCmp y (xs.foldl strMax a) ≠ .gt := by
  intro xs
  induction xs with
  | nil =>
    intro a y hy
    have hya : y = a := by simpa using hy
    rw [List.foldl_nil, hya, cmpLaws_strCmp.refl]
    decide
  | cons x xs ih =>
    intro a y hy
    rw [List.foldl_cons]
    have hge_a : strCmp a (strMax a x) ≠ .gt := by
      unfold strMax
      split
      · next hl => rw [hl]; decide
      · rw [cmpLaws_strCmp.refl]; decide
    have hge_x : strCmp x (strMax a x) ≠ .gt := by
      unfold strMax
      split
      · rw [cmpLaws_strCmp.refl]; decide
      · next hnl =>
        cases hc : strCmp x a with
        | lt => simp [hc]
        | eq => simp [hc]
        | gt => exact absurd (cmpLaws_strCmp.gtSwap hc) hnl
    have hhead : strCmp (strMax a x) (xs.foldl strMax (strMax a x)) ≠ .gt :=
      ih (strMax a x) (strMax a x) (List.mem_cons_self _ _)
    rcases List.mem_cons.mp hy with hEq | hy'
    · rw [hEq]
      exact cmpLaws_strCmp.leTrans hge_a hhead
    · rcases List.mem_cons.mp hy' with hEq | hy2
      · rw [hEq]
        exact cmpLaws_strCmp.leTrans hge_x hhead
      · exact ih (strMax a x) y (List.mem_cons_of_mem _ hy2)

/-! ### `LEFT JOIN` membership lemmas -/

theorem leftJoin_mem_left {α β : Type} {l : List α} {r : List β}
    {p : α → β → Bool} {a : α} (ha : a ∈ l) :
    ∃ ob, (a, ob) ∈ leftJoin l r p := by
  unfold leftJoin
  cases hf : r.filter (fun b => p a b) with
  | nil =>
    exact ⟨none, List.mem_flatMap.mpr ⟨a, ha, by rw [hf]; simp⟩⟩
  | cons m ms =>
    refine ⟨some m, List.mem_flatMap.mpr ⟨a, ha, ?_⟩⟩
    rw [hf]
    exact List.mem_map.mpr ⟨m, List.mem_cons_self _ _, rfl⟩

theorem leftJoin_mem_elim {α β : Type} {l : List α} {r : List β}
    {p : α → β → Bool} {pr : α × Option β} (h : pr ∈ leftJoin l r p) :
    pr.1 ∈ l ∧
      ((pr.2 = none ∧ ∀ b ∈ r, p pr.1 b = false) ∨
        (∃ b, pr.2 = some b ∧ b ∈ r ∧ p pr.1 b = true)) := by
  unfold leftJoin at h
  rcases List.mem_flatMap.mp h with ⟨a, ha, hin⟩
  cases hf : r.filter (fun b => p a b) with
  | nil =>
    rw [hf] at hin
    rcases List.mem_singleton.mp hin with rfl
    refine ⟨ha, Or.inl ⟨rfl, ?_⟩⟩
    intro b hb
    have := List.filter_eq_nil_iff.mp hf b hb
    simpa using this
  | cons m ms =>
    rw [hf] at hin
    rcases List.mem_map.mp hin with ⟨b, hb, rfl⟩
    have hbf : b ∈ r.filter (fun b => p a b) := by rw [hf]; exact hb
    have := List.mem_filter.mp hbf
    exact ⟨ha, Or.inr ⟨b, rfl, this.1, this.2⟩⟩

/-! ### Indicator-sum helpers for the QC summary -/

theorem sum_indicator_eq_count :
    ∀ {l : List EnrichedRow},
      (∀ e ∈ l, e.is_unmapped = 0 ∨ e.is_unmapped = 1) →
      (l.map (fun e => e.is_unmapped)).sum =
        (l.filter (fun e => decide (e.is_unmapped = 1))).length := by
  intro l
  induction l with
  | nil => intro _; simp
  | cons x xs ih =>
    intro hl
    have hx := hl x (List.mem_cons_self _ _)
    have hxs := fun e he => hl e (List.mem_cons_of_mem _ he)
    rcases hx with h0 | h1
    · rw [List.map_cons, List.sum_cons, h0,
        List.filter_cons_of_neg (by simp [h0]), ih hxs]
      simp
    · rw [List.map_cons, List.sum_cons, h1,
        List.filter_cons_of_pos (by simp [h1]), List.length_cons, ih hxs]
      omega

theorem sum_if_eq_filter_sum :
    ∀ (l : List EnrichedRow),
      (l.map (fun e => if e.is_unmapped = 1 then absAmt e else 0)).sum =
        ((l.filter (fun e => decide (e.is_unmapped = 1))).map absAmt).sum := by
  intro l
  induction l with
  | nil => simp
  | cons x xs ih =>
    by_cases hx : x.is_unmapped = 1
    · rw [List.map_cons, List.sum_cons, if_pos hx,
        List.filter_cons_of_pos (by simp [hx]), List.map_cons, List.sum_cons,
        ih]
    · rw [List.map_cons, List.sum_cons, if_neg hx,
        List.filter_cons_of_neg (by simp [hx]), ih]
      simp


/-! ## Claim theorems -/

/-- C5: for every input workbook, the ingester locates the data sheet by
fuzzy name match: a located sheet is one of the workbook's sheets whose
name, lowercased and stripped of non-alphanumerics, equals the normalised
form of "All data"; and the `ValueError` that lists the available sheets is
raised exactly when no sheet name normalises to that key. -/
theorem c5_all_data_sheet_fuzzy_match (sheets : List String) :
    (∀ s, findAllDataSheet sheets = .ok s →
      s ∈ sheets ∧ normKey s = normKey "All data") ∧
    (findAllDataSheet sheets = .error sheets ↔
      ∀ s ∈ sheets, normKey s ≠ normKey "All data") := by
  constructor
  · intro s hs
    unfold findAllDataSheet at hs
    cases hfind : sheets.find?
        (fun s => decide (normKey s = normKey "All data")) with
    | none => rw [hfind] at hs; cases hs
    | some t =>
      rw [hfind] at hs
      simp only [Except.ok.injEq] at hs
      subst hs
      have hp := List.find?_some hfind
      simp only [decide_eq_true_eq] at hp
      exact ⟨List.mem_of_find?_eq_some hfind, hp⟩
  · constructor
    · intro herr s hsm heq
      unfold findAllDataSheet at herr
      cases hfind : sheets.find?
          (fun s => decide (normKey s = normKey "All data")) with
      | some t => rw [hfind] at herr; cases herr
      | none =>
        have := List.find?_eq_none.mp hfind s hsm
        simp only [decide_eq_true_eq] at this
        exact this heq
    · intro hall
      unfold findAllDataSheet
      have hnone : sheets.find?
          (fun s => decide (normKey s = normKey "All data")) = none :=
        List.find?_eq_none.mpr (fun x hx => by simpa using hall x hx)
      rw [hnone]

/-- Witness for C5 at a concrete workbook. -/
theorem c5_witness :
    findAllDataSheet ["Cover", " ALL DATA "] = .ok " ALL DATA " ∧
    (" ALL DATA " ∈ ["Cover", " ALL DATA "] ∧
      normKey " ALL DATA " = normKey "All data") :=
  ⟨rfl, (c5_all_data_sheet_fuzzy_match ["Cover", " ALL DATA "]).1
    " ALL DATA " rfl⟩

/-- C3: candidate-name column resolution is first-match-wins: when every
candidate before `c` has no column with its normalised name and `c` does,
`pick_col` returns `c`'s column — a later candidate is never chosen — and
the chosen column's normalised header equals the candidate's. -/
theorem c3_pick_col_first_candidate_wins (columns pre post : List String)
    (c col : String)
    (hpre : ∀ c2 ∈ pre, colLookup columns (normKey c2) = none)
    (hc : colLookup columns (normKey c) = some col) :
    pickCol columns (pre ++ c :: post) = some col ∧
      normKey col = normKey c := by
  constructor
  · unfold pickCol
    rw [List.findSome?_append]
    have h1 : pre.findSome? (fun c2 => colLookup columns (normKey c2)) =
        none := List.findSome?_eq_none_iff.mpr hpre
    rw [h1, List.findSome?_cons]
    simp [hc]
  · unfold colLookup at hc
    have hp := List.find?_some hc
    simp only [decide_eq_true_eq] at hp
    exact hp

/-- Witness for C3 at concrete columns and candidates. -/
theorem c3_witness :
    (∀ c2 ∈ ["tableidx"], colLookup ["Table ID", "Main Code"] (normKey c2) =
      none) ∧
    colLookup ["Table ID", "Main Code"] (normKey "main code") =
      some "Main Code" ∧
    (pickCol ["Table ID", "Main Code"]
        (["tableidx"] ++ "main code" :: ["main_code"]) = some "Main Code" ∧
      normKey "Main Code" = normKey "main code") :=
  ⟨by decide, by decide,
    c3_pick_col_first_candidate_wins ["Table ID", "Main Code"] ["tableidx"]
      ["main_code"] "main code" "Main Code" (by decide) (by decide)⟩

/-- C6: amount coercion is total and pointwise: ingestion keeps every row,
each output amount is the numeric coercion of the corresponding input cell,
and a null or non-numeric cell yields a null amount instead of an error. -/
theorem c6_amount_coercion_total (rows : List RawRow) :
    (coerceAmounts rows).length = rows.length ∧
    ∀ i (hi : i < rows.length),
      ((coerceAmounts rows).get ⟨i, by simpa [coerceAmounts] using hi⟩).amount
          = toNumericCoerce (rows.get ⟨i, hi⟩).amount ∧
      ((rows.get ⟨i, hi⟩).amount = CValue.blank →
        ((coerceAmounts rows).get
          ⟨i, by simpa [coerceAmounts] using hi⟩).amount = none) ∧
      (∀ s, (rows.get ⟨i, hi⟩).amount = CValue.str s → parseDecimal s = none →
        ((coerceAmounts rows).get
          ⟨i, by simpa [coerceAmounts] using hi⟩).amount = none) ∧
      (∀ q, (rows.get ⟨i, hi⟩).amount = CValue.num q →
        ((coerceAmounts rows).get
          ⟨i, by simpa [coerceAmounts] using hi⟩).amount = some q) := by
  refine ⟨by simp [coerceAmounts], ?_⟩
  intro i hi
  have hget : ((coerceAmounts rows).get
      ⟨i, by simpa [coerceAmounts] using hi⟩) =
      coerceRow (rows.get ⟨i, hi⟩) := by
    simp [coerceAmounts, List.get_eq_getElem, List.getElem_map]
  refine ⟨by rw [hget]; rfl, ?_, ?_, ?_⟩
  · intro hbl
    rw [hget]
    show toNumericCoerce (rows.get ⟨i, hi⟩).amount = none
    rw [hbl]
    rfl
  · intro s hstr hps
    rw [hget]
    show toNumericCoerce (rows.get ⟨i, hi⟩).amount = none
    rw [hstr]
    exact hps
  · intro q hq
    rw [hget]
    show toNumericCoerce (rows.get ⟨i, hi⟩).amount = some q
    rw [hq]
    rfl

/-- Witness for C6 at a one-row sheet with a non-numeric amount. -/
theorem c6_witness :
    (0 : Nat) <
      [({ org_name_raw := CValue.str "X", WorkSheetName := CValue.str "TAC01",
          TableID := CValue.str "1", MainCode := CValue.str "A",
          RowNumber := CValue.str "10", SubCode := CValue.str "AB123",
          amount := CValue.str "not a number" } : RawRow)].length ∧
    ((coerceAmounts
        [({ org_name_raw := CValue.str "X", WorkSheetName := CValue.str "TAC01",
            TableID := CValue.str "1", MainCode := CValue.str "A",
            RowNumber := CValue.str "10", SubCode := CValue.str "AB123",
            amount := CValue.str "not a number" } : RawRow)]).get
      ⟨0, by decide⟩).amount = none :=
  ⟨by decide,
    ((c6_amount_coercion_total _).2 0 (by decide)).2.2.1 "not a number"
      (by decide) (by decide)⟩

/-- C7: in the subcode dimension written by the subcode builder, the key
(fy, worksheet name, subcode) is unique — at most one row, hence at most one
label, per key. -/
theorem c7_subcode_dim_key_unique (workbooks : List Workbook)
    (dim : List SubcodeRec) (hok : mainSubcodes workbooks = .ok dim) :
    (dim.map subKey).Nodup ∧
    ∀ r1 ∈ dim, ∀ r2 ∈ dim, subKey r1 = subKey r2 →
      r1.subcode_label = r2.subcode_label := by
  simp only [mainSubcodes] at hok
  split at hok
  · cases hok
  · simp only [Except.ok.injEq] at hok
    subst hok
    refine ⟨dedupKeepLast_nodupKeys, ?_⟩
    intro r1 h1 r2 h2 hk
    rw [eq_of_mem_of_nodupKeys dedupKeepLast_nodupKeys h1 h2 hk]


/-! ### Concrete inputs for witnesses and counterexamples -/

/-- A demonstration sheet grid: column 0 holds three subcode-like values in
rows 1–3, column 1 holds five in rows 1–5. -/
def gDemo : Grid where
  nrows := 6
  ncols := 2
  cell := fun r c =>
    match r, c with
    | 1, 0 => .str "AB123"
    | 2, 0 => .str "AB124"
    | 3, 0 => .str "AB125"
    | 1, 1 => .str "CD111"
    | 2, 1 => .str "CD112"
    | 3, 1 => .str "CD113"
    | 4, 1 => .str "CD114"
    | 5, 1 => .str "CD115"
    | _, _ => .blank

/-- A grid on which header/subcode-column detection fails (all blank). -/
def gBad : Grid where
  nrows := 2
  ncols := 1
  cell := fun _ _ => .blank

/-- A demonstration workbook list for the subcode builder. -/
def demoWorkbooks : List Workbook :=
  [{ fileName := "202122-Illustrative.xlsx", fy := "2021-22",
     sheets := [{ name := "TAC01", grid := gDemo }] }]


/-- The subcode dimension the builder writes for `demoWorkbooks`. -/
def demoDim : List SubcodeRec :=
  [{ fy := "2021-22", WorkSheetName := "TAC01", SubCode := "AB123",
     subcode_label := "", source_file := "202122-Illustrative.xlsx" },
   { fy := "2021-22", WorkSheetName := "TAC01", SubCode := "AB124",
     subcode_label := "", source_file := "202122-Illustrative.xlsx" },
   { fy := "2021-22", WorkSheetName := "TAC01", SubCode := "AB125",
     subcode_label := "", source_file := "202122-Illustrative.xlsx" }]

/-- Witness for C7 at a concrete workbook. -/
theorem c7_witness :
    mainSubcodes demoWorkbooks = .ok demoDim ∧
    ((demoDim.map subKey).Nodup ∧
      ∀ r1 ∈ demoDim, ∀ r2 ∈ demoDim, subKey r1 = subKey r2 →
        r1.subcode_label = r2.subcode_label) :=
  ⟨rfl, c7_subcode_dim_key_unique demoWorkbooks demoDim rfl⟩

/-- C2 as stated is false on `find_header_row_and_subcode_col`: on `gDemo`
the returned position `(0, 0)` has score 3 while the candidate `(0, 1)` also
clears the threshold with the strictly higher score 5 — the function returns
the first position clearing the threshold, not the best-scoring one. -/
theorem c2_counterexample :
    findHeaderRowAndSubcodeCol gDemo = some (0, 0) ∧
    3 ≤ subcodeHits gDemo 0 1 ∧
    subcodeHits gDemo 0 0 < subcodeHits gDemo 0 1 := by decide

/-- C2 amended: the subcode builder's detection scans the bounded window
(40 rows, all columns, 14-row look-ahead) and returns the FIRST position in
row-major scan order whose score clears the threshold 3 (every earlier
in-window position scores below the threshold); the standalone debug scan is
the part that picks, among rows clearing its threshold, the best-scoring row
(earliest row on score ties). -/
theorem c2_amended_first_clearing_position :
    (∀ g r c, findHeaderRowAndSubcodeCol g = some (r, c) →
      r < min 40 g.nrows ∧ c < g.ncols ∧ 3 ≤ subcodeHits g r c ∧
      ∀ r2 c2, r2 < min 40 g.nrows → c2 < g.ncols →
        (r2 < r ∨ (r2 = r ∧ c2 < c)) → subcodeHits g r2 c2 < 3) ∧
    (∀ rows pr, bestHeaderRow rows = some pr →
      pr ∈ foundRows rows ∧ 3 ≤ pr.2 ∧
      ∀ p ∈ foundRows rows, p.2 ≤ pr.2 ∧ (p.2 = pr.2 → pr.1 ≤ p.1)) := by
  constructor
  · intro g r c h
    unfold findHeaderRowAndSubcodeCol at h
    obtain ⟨i, hi, hfi, hprev⟩ := range_findSome?_some h
    obtain ⟨j, hj, hfj, hprevj⟩ := range_findSome?_some hfi
    have hij : i = r ∧ j = c ∧ 3 ≤ subcodeHits g i j := by
      by_cases hth : 3 ≤ subcodeHits g i j
      · rw [if_pos hth] at hfj
        simp only [Option.some.injEq, Prod.mk.injEq] at hfj
        exact ⟨hfj.1, hfj.2, hth⟩
      · rw [if_neg hth] at hfj
        cases hfj
    obtain ⟨hir, hjc, hth⟩ := hij
    rw [hir] at hi hprev hprevj hth
    rw [hjc] at hj hprevj hth
    refine ⟨hi, hj, hth, ?_⟩
    intro r2 c2 hr2 hc2 hbefore
    rcases hbefore with hlt | ⟨hEq, hclt⟩
    · have hnone := hprev r2 hlt
      have hn2 := List.findSome?_eq_none_iff.mp hnone c2
        (List.mem_range.mpr hc2)
      by_cases hth2 : 3 ≤ subcodeHits g r2 c2
      · rw [if_pos hth2] at hn2; cases hn2
      · omega
    · have hn2 := hprevj c2 hclt
      rw [hEq]
      by_cases hth2 : 3 ≤ subcodeHits g r c2
      · rw [if_pos hth2] at hn2; cases hn2
      · omega
  · intro rows pr h
    unfold bestHeaderRow at h
    have hscore : ∀ p ∈ foundRows rows, 3 ≤ p.2 := by
      intro p hp
      unfold foundRows at hp
      rcases List.mem_filterMap.mp hp with ⟨a, _, hfa⟩
      by_cases hth : 3 ≤ rowScore a.2
      · rw [if_pos hth] at hfa
        simp only [Option.some.injEq] at hfa
        rw [← hfa]
        exact hth
      · rw [if_neg hth] at hfa; cases hfa
    cases hs : sortByCmp debugCmp (foundRows rows) with
    | nil => rw [hs] at h; cases h
    | cons hd tl =>
      rw [hs] at h
      simp only [List.head?_cons, Option.some.injEq] at h
      subst h
      have hmem : hd ∈ foundRows rows := by
        have hin : hd ∈ sortByCmp debugCmp (foundRows rows) := by
          rw [hs]; exact List.mem_cons_self _ _
        exact mem_sortByCmp.mp hin
      refine ⟨hmem, hscore hd hmem, ?_⟩
      intro p hp
      have hpsort : p ∈ sortByCmp debugCmp (foundRows rows) :=
        mem_sortByCmp.mpr hp
      rw [hs] at hpsort
      have hsorted := sortByCmp_sorted cmpLaws_debugCmp (foundRows rows)
      rw [hs] at hsorted
      rcases List.mem_cons.mp hpsort with hEq | htl
      · rw [hEq]
        exact ⟨le_refl _, fun _ => le_refl _⟩
      · have hrel : debugCmp hd p ≠ .gt :=
          List.rel_of_pairwise_cons hsorted htl
        unfold debugCmp cmpThen cmpBy at hrel
        rw [Ne, Ordering.then_eq_gt] at hrel
        push_neg at hrel
        obtain ⟨hrel1, hrel2⟩ := hrel
        constructor
        · have hnl : ¬hd.2 < p.2 := fun hlt => hrel1 (natCmp_eq_gt.mpr hlt)
          omega
        · intro hEq2
          have heq : natCmp p.2 hd.2 = .eq := natCmp_eq_eq.mpr hEq2
          have hng : natCmp hd.1 p.1 ≠ .gt := hrel2 heq
          have hnl : ¬p.1 < hd.1 := fun hlt => hng (natCmp_eq_gt.mpr hlt)
          omega

/-- Witness for the C2 amended theorem at the demonstration grid. -/
theorem c2_amended_witness :
    findHeaderRowAndSubcodeCol gDemo = some (0, 0) ∧
    (0 < min 40 gDemo.nrows ∧ 0 < gDemo.ncols ∧ 3 ≤ subcodeHits gDemo 0 0 ∧
      ∀ r2 c2, r2 < min 40 gDemo.nrows → c2 < gDemo.ncols →
        (r2 < 0 ∨ (r2 = 0 ∧ c2 < 0)) → subcodeHits gDemo r2 c2 < 3) :=
  ⟨by decide, c2_amended_first_clearing_position.1 gDemo 0 0 (by decide)⟩

/-- C4 as stated is false on the subcode builder: on a workbook whose sheet
`"TAC01"` defeats header detection while `"TAC02"` succeeds, the script
completes without raising — the failed sheet is silently skipped and
processing continues, contradicting "no input sheet or file is silently
skipped and processing never continues past a failed detection". -/
theorem c4_counterexample :
    findHeaderRowAndSubcodeCol gBad = none ∧
    extractSheetSubcodes gBad "TAC01" "2021-22" "f.xlsx" = none ∧
    (mainSubcodes
      [{ fileName := "f.xlsx", fy := "2021-22",
         sheets := [{ name := "TAC01", grid := gBad },
                    { name := "TAC02", grid := gDemo }] }]).isOk = true := by
  exact ⟨by decide, by decide, by decide⟩


/-- A sort outputs the empty list only for the empty input. -/
theorem sortByCmp_eq_nil_iff {α : Type} {cmp : α → α → Ordering}
    {l : List α} : sortByCmp cmp l = [] ↔ l = [] := by
  constructor
  · intro h
    have hperm := List.perm_insertionSort (fun a b => cmp a b ≠ .gt) l
    unfold sortByCmp at h
    rw [h] at hperm
    exact (hperm.symm).eq_nil
  · intro h
    rw [h]
    rfl

/-- The per-sheet entry of the subcode builder's sheet loop yields nothing
exactly when the sheet is not a (stripped, lowercased) `"tac"` sheet or its
extraction fails or is empty. -/
theorem processSheets_entry_none (fy srcFile : String) (sh : Sheet) :
    (if startsWithTac sh.name then
      match extractSheetSubcodes sh.grid sh.name fy srcFile with
      | some recs => if recs.length > 0 then some recs else none
      | none => none
    else none) = none ↔
    ¬(startsWithTac sh.name = true ∧
      ∃ recs, extractSheetSubcodes sh.grid sh.name fy srcFile = some recs ∧
        0 < recs.length) := by
  by_cases htac : startsWithTac sh.name = true
  · rw [if_pos htac]
    cases hex : extractSheetSubcodes sh.grid sh.name fy srcFile with
    | none => simp [htac]
    | some recs =>
      by_cases hlen : recs.length > 0
      · simp [htac, hlen]
      · simp only [if_neg hlen, true_iff, htac, true_and, not_exists]
        intro recs2 hrec
        obtain ⟨hEq, hpos⟩ := hrec
        rw [Option.some.injEq] at hEq
        rw [← hEq] at hpos
        omega
  · rw [if_neg htac]
    simp [htac]

/-- C4 amended: the mapping-sheet search raises (listing the available
sheets) exactly when no sheet scores above zero; the subcode builder,
however, silently skips non-`tac` sheets and sheets whose detection or
extraction yields nothing, and raises only when no sheet of any input
workbook yields records. -/
theorem c4_amended_raise_conditions :
    (∀ sheets : List String,
      (∃ e, findMappingSheet sheets = .error e) ↔
        ∀ s ∈ sheets, mappingScore s = 0) ∧
    (∀ wbs : List Workbook,
      (∃ e, mainSubcodes wbs = .error e) ↔
        ∀ wb ∈ wbs, ∀ sh ∈ wb.sheets,
          ¬(startsWithTac sh.name = true ∧
            ∃ recs, extractSheetSubcodes sh.grid sh.name wb.fy wb.fileName =
              some recs ∧ 0 < recs.length)) := by
  constructor
  · intro sheets
    constructor
    · rintro ⟨e, he⟩ s hsm
      simp only [findMappingSheet] at he
      split at he
      · next hnone =>
        have hsort_nil := List.head?_eq_none_iff.mp hnone
        have hscored_nil := sortByCmp_eq_nil_iff.mp hsort_nil
        have hentry := List.filterMap_eq_nil_iff.mp hscored_nil s hsm
        by_cases hpos : 0 < mappingScore s
        · rw [if_pos hpos] at hentry; cases hentry
        · omega
      · next => cases he
    · intro hall
      have hsc : sheets.filterMap (fun s =>
          if 0 < mappingScore s then some (mappingScore s, s) else none) =
          [] := by
        rw [List.filterMap_eq_nil_iff]
        intro s hs
        have hz := hall s hs
        rw [if_neg (by omega)]
      refine ⟨sheets, ?_⟩
      simp only [findMappingSheet, hsc]
      rfl
  · intro wbs
    constructor
    · rintro ⟨e, he⟩ wb hwb sh hsh
      simp only [mainSubcodes] at he
      split at he
      · next hemp =>
        have hframes := List.isEmpty_iff.mp hemp
        have hproc : processSheets wb.fy wb.fileName wb.sheets = [] :=
          List.flatten_eq_nil_iff.mp hframes _ (List.mem_map.mpr ⟨wb, hwb, rfl⟩)
        simp only [processSheets] at hproc
        exact (processSheets_entry_none wb.fy wb.fileName sh).mp
          (List.filterMap_eq_nil_iff.mp hproc sh hsh)
      · next => cases he
    · intro hall
      have hemp : ((wbs.map (fun wb =>
          processSheets wb.fy wb.fileName wb.sheets)).flatten).isEmpty =
          true := by
        rw [List.isEmpty_iff, List.flatten_eq_nil_iff]
        intro l hl
        rcases List.mem_map.mp hl with ⟨wb, hwb, rfl⟩
        simp only [processSheets]
        rw [List.filterMap_eq_nil_iff]
        intro sh hsh
        exact (processSheets_entry_none wb.fy wb.fileName sh).mpr
          (hall wb hwb sh hsh)
      refine ⟨"No subcode mappings extracted. (Header detection likely needs tweaking.)", ?_⟩
      simp only [mainSubcodes]
      rw [if_pos hemp]


/-- On rows with equal dedup keys, the five-column sort comparator reduces
to the `fy_sort` comparison. -/
theorem lineCmp_of_key_eq {a b : LineRec} (h : lineKey a = lineKey b) :
    lineCmp a b =
      natCmp (fySortKey a.fy_source) (fySortKey b.fy_source) := by
  unfold lineKey at h
  simp only [Prod.mk.injEq] at h
  obtain ⟨h1, h2, h3, h4⟩ := h
  unfold lineCmp cmpThen cmpBy
  simp only [h1, h2, h3, h4]
  rw [cmpLaws_cvCmp.refl, cmpLaws_cvCmp.refl, cmpLaws_cvCmp.refl,
    cmpLaws_intCmp.refl]
  rfl

/-- C9: for every key (TableID, MainCode, SubCode, RowNumber) occurring in
the concatenated mapping extracts, the deduplicated line dimension retains
exactly one row with that key, and that row's source financial year has the
maximal `fy_sort` value (null-year sources parse to 0, below every parsed
year) among the key's rows. -/
theorem c9_lines_dedup_latest_year (rows : List LineRec)
    (k : CValue × CValue × CValue × Int) (hk : k ∈ rows.map lineKey) :
    ∃ r, (linesDim rows).filter (fun x => decide (lineKey x = k)) = [r] ∧
      r ∈ rows ∧ lineKey r = k ∧
      ∀ x ∈ rows, lineKey x = k →
        fySortKey x.fy_source ≤ fySortKey r.fy_source := by
  have hsorted := sortByCmp_sorted cmpLaws_lineCmp rows
  have hpw : (sortByCmp lineCmp rows).Pairwise
      (fun a b => lineKey a = lineKey b →
        fySortKey a.fy_source ≤ fySortKey b.fy_source) := by
    refine hsorted.imp ?_
    intro a b hle hkeq
    rw [lineCmp_of_key_eq hkeq] at hle
    exact natCmp_ne_gt_iff.mp hle
  have hk2 : k ∈ (sortByCmp lineCmp rows).map lineKey :=
    (map_sortByCmp_mem lineKey).mpr hk
  have hk3 : k ∈
      (dedupKeepLast lineKey (sortByCmp lineCmp rows)).map lineKey :=
    mem_keys_dedupKeepLast hk2
  rcases List.mem_map.mp hk3 with ⟨r, hr, hkr⟩
  refine ⟨r, ?_, ?_, hkr, ?_⟩
  · exact filter_eq_single_of_nodupKeys dedupKeepLast_nodupKeys hr hkr
  · exact mem_sortByCmp.mp (dedupKeepLast_subset hr)
  · intro x hx hkx
    have hxs : x ∈ sortByCmp lineCmp rows := mem_sortByCmp.mpr hx
    exact dedupKeepLast_isMax (fun r => fySortKey r.fy_source) hpw r hr x hxs
      (by rw [hkx, hkr])

/-- A duplicated mapping key across two yearly source files. -/
def demoLines : List LineRec :=
  [{ TableID := .str "T100", MainCode := .str "A11", SubCode := .str "AB123",
     RowNumber := 10, line_label := "old label", fy_source := "2020-21" },
   { TableID := .str "T100", MainCode := .str "A11", SubCode := .str "AB123",
     RowNumber := 10, line_label := "new label", fy_source := "2021-22" }]

/-- The key shared by both rows of `demoLines`. -/
def demoLineKey : CValue × CValue × CValue × Int :=
  (.str "T100", .str "A11", .str "AB123", 10)

/-- Witness for C9 at a concrete pair of duplicated rows. -/
theorem c9_witness :
    demoLineKey ∈ demoLines.map lineKey ∧
    ∃ r, (linesDim demoLines).filter
        (fun x => decide (lineKey x = demoLineKey)) = [r] ∧
      r ∈ demoLines ∧ lineKey r = demoLineKey ∧
      ∀ x ∈ demoLines, lineKey x = demoLineKey →
        fySortKey x.fy_source ≤ fySortKey r.fy_source :=
  ⟨by decide, c9_lines_dedup_latest_year demoLines demoLineKey (by decide)⟩


/-- A cell contributes nothing to the label loop exactly when it is not a
string cell with non-empty stripped value. -/
theorem labelCellValue_none_iff (g : Grid) (r c : Nat) :
    labelCellValue g r c = none ↔
      ∀ v, g.cell r c = .str v → strip v = "" := by
  unfold labelCellValue
  cases hcell : g.cell r c with
  | str v =>
    show (if strip v = "" then none else some (strip v)) = none ↔ _
    constructor
    · intro h v2 hv2
      rw [CValue.str.injEq] at hv2
      subst hv2
      by_cases hsv : strip v = ""
      · exact hsv
      · rw [if_neg hsv] at h; cases h
    · intro h
      rw [if_pos (h v rfl)]
  | num q =>
    show (none : Option String) = none ↔ _
    simp
  | blank =>
    show (none : Option String) = none ↔ _
    simp

/-- Characterisation of the label loop: `labelLeft` is the stripped value of
the leftmost non-empty string cell strictly left of `col`, or `""` when no
such cell exists. -/
theorem labelLeft_spec (g : Grid) (r col : Nat) :
    (∃ c, c < col ∧ (∃ v, g.cell r c = .str v ∧ strip v ≠ "" ∧
        labelLeft g r col = strip v) ∧
      ∀ c2, c2 < c → ∀ v2, g.cell r c2 = .str v2 → strip v2 = "") ∨
    ((∀ c, c < col → ∀ v, g.cell r c = .str v → strip v = "") ∧
      labelLeft g r col = "") := by
  cases hf : (List.range col).findSome? (labelCellValue g r) with
  | none =>
    right
    constructor
    · intro c hc v hv
      have hmem := List.findSome?_eq_none_iff.mp hf c (List.mem_range.mpr hc)
      exact (labelCellValue_none_iff g r c).mp hmem v hv
    · show ((List.range col).findSome? (labelCellValue g r)).getD "" = ""
      rw [hf]
      rfl
  | some lbl =>
    left
    obtain ⟨i, hi, hfi, hprev⟩ := range_findSome?_some hf
    have hchar : ∃ v, g.cell r i = .str v ∧ strip v ≠ "" ∧ lbl = strip v := by
      unfold labelCellValue at hfi
      cases hcell : g.cell r i with
      | str v =>
        rw [hcell] at hfi
        have hfi2 : (if strip v = "" then none else some (strip v)) =
            some lbl := hfi
        by_cases hsv : strip v = ""
        · rw [if_pos hsv] at hfi2; cases hfi2
        · rw [if_neg hsv] at hfi2
          simp only [Option.some.injEq] at hfi2
          exact ⟨v, rfl, hsv, hfi2.symm⟩
      | num q =>
        rw [hcell] at hfi
        have hfi2 : (none : Option String) = some lbl := hfi
        cases hfi2
      | blank =>
        rw [hcell] at hfi
        have hfi2 : (none : Option String) = some lbl := hfi
        cases hfi2
    obtain ⟨v, hcell, hsv, hlblv⟩ := hchar
    refine ⟨i, hi, ⟨v, hcell, hsv, ?_⟩, ?_⟩
    · show ((List.range col).findSome? (labelCellValue g r)).getD "" = strip v
      rw [hf, hlblv]
      rfl
    · intro c2 hc2 v2 hv2
      exact (labelCellValue_none_iff g r c2).mp (hprev c2 hc2) v2 hv2

/-- C10: every record the subcode extractor emits has a SubCode that is a
stripped string cell from a row strictly below the detected header row
matching the subcode pattern, and a label that is the leftmost non-empty
string cell strictly left of the detected subcode column in the same row, or
`""` when none exists. -/
theorem c10_extracted_record_shape (g : Grid) (sheet fy srcFile : String)
    (recs : List SubcodeRec) (hdr col : Nat)
    (hfind : findHeaderRowAndSubcodeCol g = some (hdr, col))
    (hex : extractSheetSubcodes g sheet fy srcFile = some recs) :
    ∀ rec ∈ recs,
      ∃ r, hdr < r ∧ r < g.nrows ∧
        (∃ s, g.cell r col = .str s ∧ rec.SubCode = strip s) ∧
        matchSubcodeRe rec.SubCode = true ∧
        ((∃ c, c < col ∧ (∃ v, g.cell r c = .str v ∧ strip v ≠ "" ∧
            rec.subcode_label = strip v) ∧
          ∀ c2, c2 < c → ∀ v2, g.cell r c2 = .str v2 → strip v2 = "") ∨
        ((∀ c, c < col → ∀ v, g.cell r c = .str v → strip v = "") ∧
          rec.subcode_label = "")) := by
  intro rec hrec
  unfold extractSheetSubcodes at hex
  rw [hfind] at hex
  split at hex
  · next heq2 => cases heq2
  · next hdr2 col2 heq2 =>
    simp only [Option.some.injEq, Prod.mk.injEq] at heq2
    obtain ⟨hh, hc⟩ := heq2
    subst hh
    subst hc
    split at hex
    · cases hex
    · simp only [Option.some.injEq] at hex
      rw [← hex] at hrec
      rcases List.mem_filterMap.mp hrec with ⟨r, hrmem, hrr⟩
      have hrange := List.mem_range'_1.mp hrmem
      unfold rowRecord at hrr
      split at hrr
      · next sub0 heq =>
        split at hrr
        · next hm =>
          simp only [Option.some.injEq] at hrr
          refine ⟨r, by omega, by omega, ⟨sub0, heq, by rw [← hrr]⟩, ?_, ?_⟩
          · have hsc : rec.SubCode = strip sub0 := by rw [← hrr]
            rw [hsc]
            exact hm
          · have hlbl : rec.subcode_label = labelLeft g r col := by rw [← hrr]
            rw [hlbl]
            exact labelLeft_spec g r col
        · cases hrr
      · cases hrr

/-- Witness for C10 at the demonstration grid. -/
theorem c10_witness :
    findHeaderRowAndSubcodeCol gDemo = some (0, 0) ∧
    extractSheetSubcodes gDemo "TAC01" "2021-22" "202122-Illustrative.xlsx" =
      some demoDim ∧
    ∀ rec ∈ demoDim,
      ∃ r, 0 < r ∧ r < gDemo.nrows ∧
        (∃ s, gDemo.cell r 0 = .str s ∧ rec.SubCode = strip s) ∧
        matchSubcodeRe rec.SubCode = true ∧
        ((∃ c, c < 0 ∧ (∃ v, gDemo.cell r c = .str v ∧ strip v ≠ "" ∧
            rec.subcode_label = strip v) ∧
          ∀ c2, c2 < c → ∀ v2, gDemo.cell r c2 = .str v2 → strip v2 = "") ∨
        ((∀ c, c < 0 → ∀ v, gDemo.cell r c = .str v → strip v = "") ∧
          rec.subcode_label = "")) :=
  ⟨by decide, rfl,
    c10_extracted_record_shape gDemo "TAC01" "2021-22"
      "202122-Illustrative.xlsx" demoDim 0 0 (by decide) rfl⟩


/-- C8: the provider dimension is a pure roll-up of the fact table: a
(sector, organisation) pair absent from the fact table yields no row, and a
pair present yields exactly one row whose first/last year seen are the
minimum/maximum fy of the pair's fact rows (under the varchar order) and
whose row count is the number of fact rows of the pair. -/
theorem c8_provider_dim_rollup (facts : List Fact) (s o : String) :
    (provGroup facts (s, o) = [] →
      (providerDim facts).filter
        (fun r => decide ((r.sector, r.org_name_raw) = (s, o))) = []) ∧
    (∀ f0 ∈ facts, factPairKey f0 = (s, o) →
      ∃ row, (providerDim facts).filter
          (fun r => decide ((r.sector, r.org_name_raw) = (s, o))) = [row] ∧
        row.sector = s ∧ row.org_name_raw = o ∧
        row.rows = (provGroup facts (s, o)).length ∧
        row.first_fy_seen ∈ (provGroup facts (s, o)).map (fun f => f.fy) ∧
        (∀ f ∈ provGroup facts (s, o),
          strCmp row.first_fy_seen f.fy ≠ .gt) ∧
        row.last_fy_seen ∈ (provGroup facts (s, o)).map (fun f => f.fy) ∧
        (∀ f ∈ provGroup facts (s, o),
          strCmp f.fy row.last_fy_seen ≠ .gt)) := by
  have hkeymap : (providerDim facts).map
      (fun r => (r.sector, r.org_name_raw)) =
      (facts.map factPairKey).dedup := by
    unfold providerDim
    rw [List.map_map]
    have hcomp : ((fun r : ProvRow => (r.sector, r.org_name_raw)) ∘
        mkProvRow facts) = id := by
      funext p
      rfl
    rw [hcomp, List.map_id]
  have hnodup : ((providerDim facts).map
      (fun r => (r.sector, r.org_name_raw))).Nodup := by
    rw [hkeymap]
    exact List.nodup_dedup _
  constructor
  · intro hgrp
    rw [List.filter_eq_nil_iff]
    intro r hr hpr
    rcases List.mem_map.mp hr with ⟨p, hp, rfl⟩
    have hpso : p = (s, o) := of_decide_eq_true hpr
    subst hpso
    rcases List.mem_map.mp (List.mem_dedup.mp hp) with ⟨f, hf, hfk⟩
    have hfg : f ∈ provGroup facts (s, o) :=
      List.mem_filter.mpr ⟨hf, by simp [hfk]⟩
    rw [hgrp] at hfg
    exact absurd hfg (List.not_mem_nil f)
  · intro f0 hf0 hk0
    have hpos : (s, o) ∈ (facts.map factPairKey).dedup :=
      List.mem_dedup.mpr (List.mem_map.mpr ⟨f0, hf0, hk0⟩)
    have hrowmem : mkProvRow facts (s, o) ∈ providerDim facts :=
      List.mem_map.mpr ⟨(s, o), hpos, rfl⟩
    have hne : f0 ∈ provGroup facts (s, o) :=
      List.mem_filter.mpr ⟨hf0, by simp [hk0]⟩
    refine ⟨mkProvRow facts (s, o),
      filter_eq_single_of_nodupKeys hnodup hrowmem rfl,
      rfl, rfl, rfl, ?_, ?_, ?_, ?_⟩
    · cases hmap : (provGroup facts (s, o)).map (fun f => f.fy) with
      | nil =>
        exfalso
        have hin : f0.fy ∈ (provGroup facts (s, o)).map (fun f => f.fy) :=
          List.mem_map.mpr ⟨f0, hne, rfl⟩
        rw [hmap] at hin
        exact absurd hin (List.not_mem_nil _)
      | cons x xs =>
        show listStrMin ((provGroup facts (s, o)).map (fun f => f.fy)) ∈
          x :: xs
        rw [hmap]
        exact foldl_strMin_mem xs x
    · intro f hf
      cases hmap : (provGroup facts (s, o)).map (fun f => f.fy) with
      | nil =>
        exfalso
        have hin : f.fy ∈ (provGroup facts (s, o)).map (fun f => f.fy) :=
          List.mem_map.mpr ⟨f, hf, rfl⟩
        rw [hmap] at hin
        exact absurd hin (List.not_mem_nil _)
      | cons x xs =>
        have hfy : f.fy ∈ x :: xs := by
          rw [← hmap]
          exact List.mem_map.mpr ⟨f, hf, rfl⟩
        show strCmp
          (listStrMin ((provGroup facts (s, o)).map (fun f => f.fy))) f.fy ≠
          .gt
        rw [hmap]
        exact foldl_strMin_le xs x f.fy hfy
    · cases hmap : (provGroup facts (s, o)).map (fun f => f.fy) with
      | nil =>
        exfalso
        have hin : f0.fy ∈ (provGroup facts (s, o)).map (fun f => f.fy) :=
          List.mem_map.mpr ⟨f0, hne, rfl⟩
        rw [hmap] at hin
        exact absurd hin (List.not_mem_nil _)
      | cons x xs =>
        show listStrMax ((provGroup facts (s, o)).map (fun f => f.fy)) ∈
          x :: xs
        rw [hmap]
        exact foldl_strMax_mem xs x
    · intro f hf
      cases hmap : (provGroup facts (s, o)).map (fun f => f.fy) with
      | nil =>
        exfalso
        have hin : f.fy ∈ (provGroup facts (s, o)).map (fun f => f.fy) :=
          List.mem_map.mpr ⟨f, hf, rfl⟩
        rw [hmap] at hin
        exact absurd hin (List.not_mem_nil _)
      | cons x xs =>
        have hfy : f.fy ∈ x :: xs := by
          rw [← hmap]
          exact List.mem_map.mpr ⟨f, hf, rfl⟩
        show strCmp f.fy
          (listStrMax ((provGroup facts (s, o)).map (fun f => f.fy))) ≠ .gt
        rw [hmap]
        exact foldl_strMax_ge xs x f.fy hfy

/-- A two-year fact history of one provider. -/
def demoFact0 : Fact :=
  { org_name_raw := "ACME TRUST", WorkSheetName := "TAC01",
    SubCode := "AB123", amount := none, fy := "2020-21", sector := "Trust" }

/-- A second fact row of the same provider in a later year. -/
def demoFact1 : Fact :=
  { org_name_raw := "ACME TRUST", WorkSheetName := "TAC02",
    SubCode := "AB124", amount := none, fy := "2021-22", sector := "Trust" }

/-- The demonstration fact table. -/
def demoFacts : List Fact := [demoFact0, demoFact1]

/-- Witness for C8 at the demonstration fact table. -/
theorem c8_witness :
    (demoFact0 ∈ demoFacts ∧ factPairKey demoFact0 = ("Trust", "ACME TRUST")) ∧
    (∃ row, (providerDim demoFacts).filter
        (fun r => decide ((r.sector, r.org_name_raw) =
          ("Trust", "ACME TRUST"))) = [row] ∧
      row.sector = "Trust" ∧ row.org_name_raw = "ACME TRUST" ∧
      row.rows = (provGroup demoFacts ("Trust", "ACME TRUST")).length ∧
      row.first_fy_seen ∈
        (provGroup demoFacts ("Trust", "ACME TRUST")).map (fun f => f.fy) ∧
      (∀ f ∈ provGroup demoFacts ("Trust", "ACME TRUST"),
        strCmp row.first_fy_seen f.fy ≠ .gt) ∧
      row.last_fy_seen ∈
        (provGroup demoFacts ("Trust", "ACME TRUST")).map (fun f => f.fy) ∧
      (∀ f ∈ provGroup demoFacts ("Trust", "ACME TRUST"),
        strCmp f.fy row.last_fy_seen ≠ .gt)) :=
  ⟨⟨by decide, by decide⟩,
    (c8_provider_dim_rollup demoFacts "Trust" "ACME TRUST").2 demoFact0
      (by decide) (by decide)⟩


/-- Every materialised enriched row carries a 0/1 `is_unmapped` flag. -/
theorem buildEnriched_is_unmapped_binary (fact : List Fact)
    (prov : List ProvDimRow) (sub : List SubDimRow) :
    ∀ e ∈ buildEnriched fact prov sub,
      e.is_unmapped = 0 ∨ e.is_unmapped = 1 := by
  intro e he
  rcases List.mem_map.mp he with ⟨pair, _, rfl⟩
  unfold mkEnriched
  by_cases h : (pair.2.bind fun m => m.subcode_label) = none
  · right
    simp [h]
  · left
    simp [h]

/-- C1: enrichment keeps every fact row (LEFT JOIN semantics): a row whose
keys match no dimension row still yields an enriched row, with a null
subcode label and `is_unmapped = 1` rather than an error; and the QC summary
computes, per (fy, sector), the unmapped row count and the unmapped share
ingredients of the group. -/
theorem c1_enrichment_left_join_qc (fact : List Fact) (prov : List ProvDimRow)
    (sub : List SubDimRow) (f : Fact) (hf : f ∈ fact) :
    (∃ e ∈ buildEnriched fact prov sub, e.f = f) ∧
    ((∀ m ∈ sub.map toWsRow, subMatch f m = false) →
      (∃ e ∈ buildEnriched fact prov sub,
        e.f = f ∧ e.subcode_label = none ∧ e.is_unmapped = 1) ∧
      (∀ e ∈ buildEnriched fact prov sub, e.f = f →
        e.subcode_label = none ∧ e.is_unmapped = 1)) ∧
    (∀ fy sector,
      (qcRow (buildEnriched fact prov sub) fy sector).unmapped_rows =
        ((qcGroup (buildEnriched fact prov sub) fy sector).filter
          (fun e => decide (e.is_unmapped = 1))).length ∧
      (qcRow (buildEnriched fact prov sub) fy sector).abs_unmapped =
        (((qcGroup (buildEnriched fact prov sub) fy sector).filter
          (fun e => decide (e.is_unmapped = 1))).map absAmt).sum) := by
  obtain ⟨op, hop⟩ := leftJoin_mem_left (r := prov) (p := provMatch) hf
  obtain ⟨om, hom⟩ := leftJoin_mem_left (r := sub.map toWsRow)
    (p := fun fp m => subMatch fp.1 m) hop
  refine ⟨?_, ?_, ?_⟩
  · exact ⟨mkEnriched ((f, op), om), List.mem_map.mpr ⟨((f, op), om), hom, rfl⟩,
      rfl⟩
  · intro hnm
    constructor
    · have homn : om = none := by
        rcases (leftJoin_mem_elim hom).2 with ⟨hn, _⟩ | ⟨b, hb, hbr, hpred⟩
        · exact hn
        · exact absurd hpred (by rw [hnm b hbr]; decide)
      refine ⟨mkEnriched ((f, op), om),
        List.mem_map.mpr ⟨((f, op), om), hom, rfl⟩, rfl, ?_, ?_⟩
      · show (om.bind fun m => m.subcode_label) = none
        rw [homn]
        rfl
      · show (if (om.bind fun m => m.subcode_label) = none then 1 else 0) = 1
        rw [homn]
        rfl
    · intro e he hef
      rcases List.mem_map.mp he with ⟨pair, hpair, rfl⟩
      have hp1 : pair.1.1 = f := hef
      have hpn : pair.2 = none := by
        rcases (leftJoin_mem_elim hpair).2 with ⟨hn, _⟩ | ⟨b, hb, hbr, hpred⟩
        · exact hn
        · rw [hp1] at hpred
          exact absurd hpred (by rw [hnm b hbr]; decide)
      constructor
      · show (pair.2.bind fun m => m.subcode_label) = none
        rw [hpn]
        rfl
      · show (if (pair.2.bind fun m => m.subcode_label) = none then 1 else 0)
          = 1
        rw [hpn]
        rfl
  · intro fy sector
    have hbin : ∀ e ∈ qcGroup (buildEnriched fact prov sub) fy sector,
        e.is_unmapped = 0 ∨ e.is_unmapped = 1 := by
      intro e he
      exact buildEnriched_is_unmapped_binary fact prov sub e
        (List.mem_filter.mp he).1
    exact ⟨sum_indicator_eq_count hbin, sum_if_eq_filter_sum _⟩

/-- A mapping row matching none of the demonstration fact rows. -/
def demoSubRow : SubDimRow :=
  { fy := "2019-20", WorkSheetName := "TAC09", SubCode := "ZZ999",
    subcode_label := some "something", source_file := "x.csv" }

/-- Witness for C1: an unmatched fact row is kept with a null label and
`is_unmapped = 1`. -/
theorem c1_witness :
    demoFact0 ∈ demoFacts ∧
    (∀ m ∈ [demoSubRow].map toWsRow, subMatch demoFact0 m = false) ∧
    ((∃ e ∈ buildEnriched demoFacts [] [demoSubRow],
        e.f = demoFact0 ∧ e.subcode_label = none ∧ e.is_unmapped = 1) ∧
      (∀ e ∈ buildEnriched demoFacts [] [demoSubRow], e.f = demoFact0 →
        e.subcode_label = none ∧ e.is_unmapped = 1)) :=
  ⟨by decide, by decide,
    (c1_enrichment_left_join_qc demoFacts [] [demoSubRow] demoFact0
      (by decide)).2.1 (by decide)⟩

end TruTac
